import Mathlib

/-!
Verification of the OpenAPI-to-tool compiler and request dispatcher of the
argo-workflows-mcp server.  The source is dynamically typed TypeScript, so the
embedding models JSON/JS values as an inductive `Json` type (JS objects are
ordered association lists) and mirrors the JS truthiness, property-access and
object-spread semantics the code relies on.  The repository contains two
near-duplicate parser classes ("first parser variant" and "second parser
variant" below, in file order); both are embedded where a property concerns
both.  Recursive schema resolution is embedded with an explicit fuel
parameter: the result `BRes.out` means the fuel ran out, so proving the
result is not `BRes.out` for some fuel corresponds to termination of the
source recursion, and proving the result is `BRes.out` for every fuel
corresponds to unbounded recursion of the source.
-/

namespace ArgoMCP

/-- JSON / JavaScript values.  `undef` models JS `undefined`, which the source
distinguishes from `null` (e.g. `args[k] !== undefined`).  Objects are ordered
field lists, mirroring JS property insertion order. -/
inductive Json where
  | null
  | undef
  | bool (b : Bool)
  | num (n : Int)
  | str (s : String)
  | arr (elems : List Json)
  | obj (fields : List (String × Json))
deriving Repr

mutual
def beqJson : Json → Json → Bool
  | .null, .null => true
  | .undef, .undef => true
  | .bool a, .bool b => a == b
  | .num a, .num b => a == b
  | .str a, .str b => a == b
  | .arr a, .arr b => beqJsonL a b
  | .obj a, .obj b => beqJsonF a b
  | _, _ => false

def beqJsonL : List Json → List Json → Bool
  | [], [] => true
  | x :: xs, y :: ys => beqJson x y && beqJsonL xs ys
  | _, _ => false

def beqJsonF : List (String × Json) → List (String × Json) → Bool
  | [], [] => true
  | (k, v) :: xs, (k', v') :: ys => k == k' && beqJson v v' && beqJsonF xs ys
  | _, _ => false
end

mutual
theorem beqJson_iff : ∀ a b : Json, beqJson a b = true ↔ a = b
  | .null, b => by cases b <;> simp [beqJson]
  | .undef, b => by cases b <;> simp [beqJson]
  | .bool a, b => by cases b <;> simp [beqJson]
  | .num a, b => by cases b <;> simp [beqJson]
  | .str a, b => by cases b <;> simp [beqJson]
  | .arr a, b => by
      cases b <;> simp [beqJson]
      exact beqJsonL_iff a _
  | .obj a, b => by
      cases b <;> simp [beqJson]
      exact beqJsonF_iff a _

theorem beqJsonL_iff : ∀ a b : List Json, beqJsonL a b = true ↔ a = b
  | [], [] => by simp [beqJsonL]
  | [], _ :: _ => by simp [beqJsonL]
  | _ :: _, [] => by simp [beqJsonL]
  | x :: xs, y :: ys => by
      simp [beqJsonL, beqJson_iff x y, beqJsonL_iff xs ys]

theorem beqJsonF_iff : ∀ a b : List (String × Json), beqJsonF a b = true ↔ a = b
  | [], [] => by simp [beqJsonF]
  | [], _ :: _ => by simp [beqJsonF]
  | _ :: _, [] => by simp [beqJsonF]
  | (k, v) :: xs, (k', v') :: ys => by
      simp [beqJsonF, beqJson_iff v v', beqJsonF_iff xs ys]
end

instance : DecidableEq Json := fun a b => decidable_of_iff _ (beqJson_iff a b)

instance {ε α : Type} [DecidableEq ε] [DecidableEq α] : DecidableEq (Except ε α) := fun a b =>
  match a, b with
  | .ok x, .ok y => decidable_of_iff (x = y) (by simp)
  | .error x, .error y => decidable_of_iff (x = y) (by simp)
  | .ok _, .error _ => isFalse (by simp)
  | .error _, .ok _ => isFalse (by simp)

namespace Json

/-- JS truthiness: `false`, `0`, `""`, `null`, `undefined` are falsy. -/
def jsTruthy : Json → Bool
  | .null => false
  | .undef => false
  | .bool b => b
  | .num n => n != 0
  | .str s => s ≠ ""
  | .arr _ => true
  | .obj _ => true

end Json

open Json

/-- Property access `o[k]` on an object; `none` when the key is absent or the
value is not an object (accessing a property of a primitive yields
`undefined` in JS). -/
def jsGet : Json → String → Option Json
  | .obj fields, k => fields.lookup k
  | _, _ => none

/-- Property access defaulting to `undefined`, as JS does. -/
def jsGetD (j : Json) (k : String) : Json :=
  (jsGet j k).getD Json.undef

/-- `if (o.k)`-style access: the value only when present and truthy. -/
def getTruthy (j : Json) (k : String) : Option Json :=
  match jsGet j k with
  | some v => if jsTruthy v then some v else none
  | none => none

/-- Key presence, for `'k' in o` membership tests. -/
def jsHasKey (j : Json) (k : String) : Bool :=
  (jsGet j k).isSome

/-- Single property assignment `o[k] = v`: overwrites in place when the key
exists (JS keeps the original property position), appends otherwise. -/
def setEntry (k : String) (v : Json) (kv : String × Json) : String × Json :=
  if kv.1 == k then (k, v) else kv

def setKey (l : List (String × Json)) (k : String) (v : Json) : List (String × Json) :=
  if l.any (fun kv => kv.1 == k) then
    l.map (setEntry k v)
  else
    l ++ [(k, v)]

/-- `Object.assign(target, src)`: assign every field of `src` in order. -/
def jsAssign (l : List (String × Json)) (updates : List (String × Json)) : List (String × Json) :=
  updates.foldl (fun acc kv => setKey acc kv.1 kv.2) l

/-- Fields visible to an object spread `{...v}`; primitives spread to
nothing. -/
def fieldsOfSpread : Json → List (String × Json)
  | .obj fields => fields
  | _ => []

mutual
/-- String coercion as JS `String(v)` / template interpolation performs it. -/
def jsToString : Json → String
  | .null => "null"
  | .undef => "undefined"
  | .bool true => "true"
  | .bool false => "false"
  | .num n => toString n
  | .str s => s
  | .arr xs => String.intercalate "," (jsToStringElems xs)
  | .obj _ => "[object Object]"

/-- Array elements join with `""` for `null`/`undefined`, as `Array.join`. -/
def jsToStringElems : List Json → List String
  | [] => []
  | .null :: xs => "" :: jsToStringElems xs
  | .undef :: xs => "" :: jsToStringElems xs
  | x :: xs => jsToString x :: jsToStringElems xs
end

mutual
/-- Structural size of a JSON value, the measure for resolver termination. -/
def jsize : Json → Nat
  | .obj fields => 1 + jsizeF fields
  | .arr xs => 1 + jsizeL xs
  | _ => 1

def jsizeL : List Json → Nat
  | [] => 0
  | x :: xs => jsize x + jsizeL xs

def jsizeF : List (String × Json) → Nat
  | [] => 0
  | kv :: xs => 1 + jsize kv.2 + jsizeF xs
end

mutual
/-- All string values stored under a `$ref` key anywhere inside a value: the
reference strings the resolver can ever encounter from this value. -/
def refsIn : Json → List String
  | .obj fields => refsInF fields
  | .arr xs => refsInL xs
  | _ => []

def refsInL : List Json → List String
  | [] => []
  | x :: xs => refsIn x ++ refsInL xs

def refsInF : List (String × Json) → List String
  | [] => []
  | kv :: xs =>
    (match kv with
     | ("$ref", .str r) => [r]
     | _ => []) ++ refsIn kv.2 ++ refsInF xs
end

theorem jsize_pos (j : Json) : 1 ≤ jsize j := by
  cases j <;> simp [jsize]

theorem jsizeL_mem {x : Json} {xs : List Json} (h : x ∈ xs) : jsize x ≤ jsizeL xs := by
  induction xs with
  | nil => simp at h
  | cons y ys ih =>
    rcases List.mem_cons.mp h with rfl | h
    · simp [jsizeL]
    · have := ih h
      simp [jsizeL]
      omega

theorem jsizeF_lookup {fields : List (String × Json)} {k : String} {v : Json}
    (h : fields.lookup k = some v) : 1 + jsize v ≤ jsizeF fields := by
  induction fields with
  | nil => simp [List.lookup] at h
  | cons kv rest ih =>
    rw [List.lookup] at h
    by_cases hk : k == kv.1
    · simp [hk] at h
      subst h
      simp [jsizeF]
    · simp [hk] at h
      have := ih h
      simp [jsizeF]
      omega

theorem jsize_jsGet {j : Json} {k : String} {v : Json} (h : jsGet j k = some v) :
    jsize v < jsize j := by
  cases j <;> simp [jsGet] at h
  case obj fields =>
    have := jsizeF_lookup h
    simp [jsize]
    omega

theorem refsInF_lookup {fields : List (String × Json)} {k : String} {v : Json}
    (h : fields.lookup k = some v) : ∀ r ∈ refsIn v, r ∈ refsInF fields := by
  induction fields with
  | nil => simp [List.lookup] at h
  | cons kv rest ih =>
    rw [List.lookup] at h
    by_cases hk : k == kv.1
    · simp [hk] at h
      subst h
      intro r hr
      simp [refsInF, List.mem_append]
      tauto
    · simp [hk] at h
      intro r hr
      simp [refsInF, List.mem_append]
      have := ih h r hr
      tauto

theorem refsIn_jsGet {j : Json} {k : String} {v : Json} (h : jsGet j k = some v) :
    ∀ r ∈ refsIn v, r ∈ refsIn j := by
  cases j <;> simp [jsGet] at h
  case obj fields =>
    simpa [refsIn] using refsInF_lookup h

theorem refsInL_mem {x : Json} {xs : List Json} (h : x ∈ xs) :
    ∀ r ∈ refsIn x, r ∈ refsInL xs := by
  induction xs with
  | nil => simp at h
  | cons y ys ih =>
    intro r hr
    rcases List.mem_cons.mp h with rfl | h
    · simp [refsInL, List.mem_append]
      left; exact hr
    · simp [refsInL, List.mem_append]
      right; exact ih h r hr

theorem refsIn_arrElem {x : Json} {xs : List Json} (h : x ∈ xs) :
    ∀ r ∈ refsIn x, r ∈ refsIn (Json.arr xs) := by
  simpa [refsIn] using refsInL_mem h

/-! ## Reference pointer resolution (`resolveRef`, both parser variants) -/

/-- `s.split('/')` on character lists, with JS semantics (empty segments kept,
`""` splits to `[""]`). -/
def splitSlashChars : List Char → List (List Char)
  | [] => [[]]
  | c :: rest =>
    let r := splitSlashChars rest
    if c = '/' then [] :: r
    else
      match r with
      | h :: t => (c :: h) :: t
      | [] => [[c]]

/-- `ref.split('/')` as the source performs on reference pointers. -/
def splitSlash (s : String) : List String :=
  (splitSlashChars s.data).map (fun cs => String.mk cs)

/-- First parser variant `resolveRef` walk: `current = current[part]`, and on
a falsy step the fallback `{type: 'object'}` is returned instead of an
error. -/
def walkRef1 : Json → List String → Json
  | cur, [] => cur
  | cur, part :: rest =>
    let nxt := jsGetD cur part
    if jsTruthy nxt then walkRef1 nxt rest
    else Json.obj [("type", Json.str "object")]

/-- First parser variant `resolveRef`: drop the leading `#` segment and walk
from the document root; no version-specific rebasing. -/
def resolveRef1 (doc : Json) (ref : String) : Json :=
  walkRef1 doc ((splitSlash ref).drop 1)

/-- Second parser variant `resolveRef` walk: `current = current?.[part]`
(optional chaining, which `jsGetD` already models since property access on
`null`/`undefined`/primitives yields `undefined`), throwing a
`SchemaParseError` when the step is falsy. -/
def walkRef2 (ref : String) : Json → List String → Except String Json
  | cur, [] => .ok cur
  | cur, part :: rest =>
    let nxt := jsGetD cur part
    if jsTruthy nxt then walkRef2 ref nxt rest
    else .error ("Cannot resolve $ref: " ++ ref)

/-- Second parser variant `resolveRef`: drop the leading `#` segment, rebase a
Swagger 2.0 `definitions` pointer onto the definitions store and an OpenAPI
3.x `components` pointer onto the components store, then walk; a missing
segment is an error. -/
def resolveRef2 (isV3 : Bool) (doc : Json) (ref : String) : Except String Json :=
  let parts := (splitSlash ref).drop 1
  if isV3 = false ∧ parts.head? = some "definitions" then
    walkRef2 ref (jsGetD doc "definitions") (parts.drop 1)
  else if isV3 = true ∧ parts.head? = some "components" then
    walkRef2 ref (jsGetD doc "components") (parts.drop 1)
  else
    walkRef2 ref doc parts

/-! ## Schema resolution (`resolveSchema`, both parser variants) -/

/-- Abnormal outcome of a fueled JS computation: `err` is a thrown JS
exception; `out` is fuel exhaustion, which is an artifact of the embedding
(the source recursion ran deeper than the supplied fuel). -/
inductive RBad where
  | err (msg : String)
  | out
deriving DecidableEq, Repr

/-- Sequence the results of mapping the resolver over an array (`allOf`
branches); the first abnormal result aborts, as a thrown exception does. -/
def collectOks : List (Except RBad Json) → Except RBad (List Json)
  | [] => .ok []
  | .ok v :: rest => (collectOks rest).map (fun vs => v :: vs)
  | .error b :: _ => .error b

/-- Sequence over object entries (`properties` values). -/
def collectFieldOks : List (String × Except RBad Json) → Except RBad (List (String × Json))
  | [] => .ok []
  | (k, .ok v) :: rest => (collectFieldOks rest).map (fun vs => (k, v) :: vs)
  | (_, .error b) :: _ => .error b

/-- Accumulator form of first-occurrence de-duplication. -/
def dedupFirstAux : List Json → List Json → List Json
  | [], _ => []
  | x :: xs, seen =>
    if seen.contains x then dedupFirstAux xs seen
    else x :: dedupFirstAux xs (x :: seen)

/-- `[...new Set(xs)]`: de-duplicate keeping first occurrences.  JS `Set`
compares primitives by value; for object elements it uses identity, so the
theorems below restrict `required` entries to primitives. -/
def dedupFirst (l : List Json) : List Json :=
  dedupFirstAux l []

/-- Loop body of `mergeSchemas` (identical in both parser variants):
`Object.assign` the `properties`, concatenate the `required` lists.
Spreading a truthy non-array `required` throws; a truthy non-object
`properties` is skipped (`Object.assign` from a primitive copies nothing). -/
def mergeLoop : List Json → List (String × Json) → List Json →
    Except String (List (String × Json) × List Json)
  | [], props, req => .ok (props, req)
  | s :: rest, props, req =>
    let props' :=
      match getTruthy s "properties" with
      | some (Json.obj pf) => jsAssign props pf
      | _ => props
    match getTruthy s "required" with
    | some (Json.arr xs) => mergeLoop rest props' (req ++ xs)
    | some _ => .error "required is not iterable"
    | none => mergeLoop rest props' req

/-- `mergeSchemas` (identical in both parser variants): start from
`{type: 'object', properties: {}, required: []}`, merge every branch,
de-duplicate `required` and delete it when empty. -/
def mergeSchemas (schemas : List Json) : Except String Json :=
  match mergeLoop schemas [] [] with
  | .error e => .error e
  | .ok (props, req) =>
    let dreq := dedupFirst req
    .ok (Json.obj ([("type", Json.str "object"), ("properties", Json.obj props)] ++
      (if dreq.isEmpty then [] else [("required", Json.arr dreq)])))

/-- Body of the first parser variant's `resolveSchema(schema, visited)`, with
the recursive call abstracted as `rec`.  It carries the set of `$ref` strings
on the active resolution path and returns the `{type: 'object'}` placeholder
annotated with the offending reference when a reference already in the set is
met again.  A truthy non-string `$ref`, a truthy non-array
`allOf`/`oneOf`/`anyOf` and a truthy non-object `properties` throw in the
source (`split`/`map`/`entries` on an unsuitable value) and are embedded as
`err`. -/
def resolve1Body (doc : Json) (rec : Json → List String → Except RBad Json)
    (schema : Json) (visited : List String) : Except RBad Json :=
  if jsTruthy schema = false then .ok (Json.obj [("type", Json.str "string")])
  else
    match getTruthy schema "$ref" with
    | some (Json.str r) =>
      if visited.contains r then
        .ok (Json.obj [("type", Json.str "object"),
          ("description", Json.str ("Circular reference to " ++ r))])
      else
        rec (resolveRef1 doc r) (r :: visited)
    | some _ => .error (.err "$ref is not a string")
    | none =>
      match getTruthy schema "allOf" with
      | some (Json.arr branches) =>
        match collectOks (branches.map (fun s => rec s visited)) with
        | .error b => .error b
        | .ok vs =>
          match mergeSchemas vs with
          | .ok m => .ok m
          | .error e => .error (.err e)
      | some _ => .error (.err "allOf is not an array")
      | none =>
        match (getTruthy schema "oneOf").orElse (fun _ => getTruthy schema "anyOf") with
        | some (Json.arr xs) => rec (xs.headD Json.undef) visited
        | some _ => .error (.err "oneOf/anyOf is not an array")
        | none =>
          match schema with
          | Json.obj fields =>
            match getTruthy (Json.obj fields) "properties" with
            | some (Json.obj pf) =>
              match collectFieldOks (pf.map (fun kv => (kv.1, rec kv.2 visited))) with
              | .error b => .error b
              | .ok newPf =>
                let fields1 := setKey fields "properties" (Json.obj newPf)
                match getTruthy (Json.obj fields1) "items" with
                | some it =>
                  match rec it visited with
                  | .ok r => .ok (Json.obj (setKey fields1 "items" r))
                  | .error b => .error b
                | none => .ok (Json.obj fields1)
            | some _ => .error (.err "properties is not an object")
            | none =>
              match getTruthy (Json.obj fields) "items" with
              | some it =>
                match rec it visited with
                | .ok r => .ok (Json.obj (setKey fields "items" r))
                | .error b => .error b
              | none => .ok (Json.obj fields)
          | other => .ok other

/-- First parser variant `resolveSchema`, fueled. -/
def resolve1 (doc : Json) : Nat → Json → List String → Except RBad Json
  | 0, _, _ => .error .out
  | fuel + 1, schema, visited => resolve1Body doc (resolve1 doc fuel) schema visited

theorem resolve1_succ (doc : Json) (fuel : Nat) (schema : Json) (visited : List String) :
    resolve1 doc (fuel + 1) schema visited =
      resolve1Body doc (resolve1 doc fuel) schema visited := rfl

/-- Body of the second parser variant's `resolveSchema(schema)`: the same
recursion but with no visited set and no cycle check, and `resolveRef`
failures are thrown schema-parse errors. -/
def resolve2Body (isV3 : Bool) (doc : Json) (rec : Json → Except RBad Json)
    (schema : Json) : Except RBad Json :=
  if jsTruthy schema = false then .ok (Json.obj [("type", Json.str "string")])
  else
    match getTruthy schema "$ref" with
    | some (Json.str r) =>
      match resolveRef2 isV3 doc r with
      | .ok target => rec target
      | .error e => .error (.err e)
    | some _ => .error (.err "$ref is not a string")
    | none =>
      match getTruthy schema "allOf" with
      | some (Json.arr branches) =>
        match collectOks (branches.map (fun s => rec s)) with
        | .error b => .error b
        | .ok vs =>
          match mergeSchemas vs with
          | .ok m => .ok m
          | .error e => .error (.err e)
      | some _ => .error (.err "allOf is not an array")
      | none =>
        match (getTruthy schema "oneOf").orElse (fun _ => getTruthy schema "anyOf") with
        | some (Json.arr xs) => rec (xs.headD Json.undef)
        | some _ => .error (.err "oneOf/anyOf is not an array")
        | none =>
          match schema with
          | Json.obj fields =>
            match getTruthy (Json.obj fields) "properties" with
            | some (Json.obj pf) =>
              match collectFieldOks (pf.map (fun kv => (kv.1, rec kv.2))) with
              | .error b => .error b
              | .ok newPf =>
                let fields1 := setKey fields "properties" (Json.obj newPf)
                match getTruthy (Json.obj fields1) "items" with
                | some it =>
                  match rec it with
                  | .ok r => .ok (Json.obj (setKey fields1 "items" r))
                  | .error b => .error b
                | none => .ok (Json.obj fields1)
            | some _ => .error (.err "properties is not an object")
            | none =>
              match getTruthy (Json.obj fields) "items" with
              | some it =>
                match rec it with
                | .ok r => .ok (Json.obj (setKey fields "items" r))
                | .error b => .error b
              | none => .ok (Json.obj fields)
          | other => .ok other

/-- Second parser variant `resolveSchema`, fueled. -/
def resolve2 (isV3 : Bool) (doc : Json) : Nat → Json → Except RBad Json
  | 0, _ => .error .out
  | fuel + 1, schema => resolve2Body isV3 doc (resolve2 isV3 doc fuel) schema

theorem resolve2_succ (isV3 : Bool) (doc : Json) (fuel : Nat) (schema : Json) :
    resolve2 isV3 doc (fuel + 1) schema =
      resolve2Body isV3 doc (resolve2 isV3 doc fuel) schema := rfl

/-! ## Lookup lemmas for `setKey` / `jsAssign` -/

/-- Explicit left-biased choice on options. -/
def oElse {α : Type} (a b : Option α) : Option α :=
  match a with
  | some v => some v
  | none => b

theorem lookup_append (l₁ l₂ : List (String × Json)) (k : String) :
    (l₁ ++ l₂).lookup k = oElse (l₁.lookup k) (l₂.lookup k) := by
  induction l₁ with
  | nil => simp [oElse]
  | cons kv rest ih =>
    by_cases h : k == kv.1
    · simp [List.lookup, h, oElse]
    · simp [List.lookup, h, ih]

theorem lookup_mapSet_other (l : List (String × Json)) (k : String) (v : Json) (k' : String)
    (h : k' ≠ k) :
    ((l.map (setEntry k v)).lookup k') = l.lookup k' := by
  induction l with
  | nil => simp
  | cons kv rest ih =>
    obtain ⟨k1, v1⟩ := kv
    simp only [List.map_cons]
    by_cases hk : k1 = k
    · have hhead : setEntry k v (k1, v1) = (k, v) := by
        simp [setEntry, hk]
      rw [hhead]
      have hne : (k' == k) = false := by simp [h]
      rw [List.lookup, List.lookup, hne]
      have hne1 : (k' == k1) = false := by simp [hk ▸ h]
      rw [hne1]
      exact ih
    · have hhead : setEntry k v (k1, v1) = (k1, v1) := by
        simp [setEntry, hk]
      rw [hhead]
      rw [List.lookup, List.lookup]
      cases h2 : (k' == k1)
      · exact ih
      · rfl

theorem lookup_mapSet_self (l : List (String × Json)) (k : String) (v : Json)
    (h : l.any (fun kv => kv.1 == k) = true) :
    ((l.map (setEntry k v)).lookup k) = some v := by
  induction l with
  | nil => simp at h
  | cons kv rest ih =>
    obtain ⟨k1, v1⟩ := kv
    simp only [List.map_cons]
    by_cases hk : k1 = k
    · have hhead : setEntry k v (k1, v1) = (k, v) := by
        simp [setEntry, hk]
      rw [hhead, List.lookup]
      simp
    · have hb : (k1 == k) = false := by simp [hk]
      have hhead : setEntry k v (k1, v1) = (k1, v1) := by
        simp [setEntry, hk]
      rw [hhead, List.lookup]
      simp only [List.any_cons] at h
      have hkk : (k == k1) = false := by
        simp
        intro he
        exact hk he.symm
      rw [hkk]
      simp only [hb, Bool.false_or] at h
      exact ih h

theorem lookup_any_none (l : List (String × Json)) (k : String)
    (h : l.any (fun kv => kv.1 == k) = false) : l.lookup k = none := by
  induction l with
  | nil => simp
  | cons kv rest ih =>
    obtain ⟨k1, v1⟩ := kv
    simp only [List.any_cons, Bool.or_eq_false_iff] at h
    have hkk : (k == k1) = false := by
      simp only [beq_eq_false_iff_ne, ne_eq]
      intro he
      subst he
      simp at h
    rw [List.lookup, hkk]
    exact ih h.2

theorem lookup_setKey (l : List (String × Json)) (k : String) (v : Json) (k' : String) :
    (setKey l k v).lookup k' = if k' = k then some v else l.lookup k' := by
  unfold setKey
  by_cases hany : l.any (fun kv => kv.1 == k) = true
  · simp only [hany, if_true]
    by_cases hk : k' = k
    · subst hk
      simp [lookup_mapSet_self l k' v hany]
    · simp [hk, lookup_mapSet_other l k v k' hk]
  · simp only [Bool.not_eq_true] at hany
    simp only [hany, Bool.false_eq_true, if_false, lookup_append]
    by_cases hk : k' = k
    · subst hk
      simp [lookup_any_none l k' hany, oElse, List.lookup]
    · have hb : (k' == k) = false := by simp [hk]
      simp [hk, List.lookup, hb, oElse]
      cases l.lookup k' <;> simp [oElse]

/-- Value of a key after the last assignment wins: lookup in the reversed
list. -/
def lookupLast (l : List (String × Json)) (k : String) : Option Json :=
  l.reverse.lookup k

theorem lookup_jsAssign (l updates : List (String × Json)) (k : String) :
    (jsAssign l updates).lookup k = oElse (lookupLast updates k) (l.lookup k) := by
  induction updates generalizing l with
  | nil => simp [jsAssign, lookupLast, oElse]
  | cons kv rest ih =>
    have step : jsAssign l (kv :: rest) = jsAssign (setKey l kv.1 kv.2) rest := by
      simp [jsAssign]
    rw [step, ih]
    have hl : lookupLast (kv :: rest) k =
        oElse (lookupLast rest k) ([kv].lookup k) := by
      simp [lookupLast, lookup_append]
    rw [hl]
    cases hrest : lookupLast rest k with
    | some v => simp [oElse]
    | none =>
      simp [oElse, lookup_setKey]
      by_cases hk : k = kv.1
      · subst hk
        simp [List.lookup]
      · have hb : (k == kv.1) = false := by simp [hk]
        simp [hk, List.lookup, hb]

theorem jsAssign_append (l u1 u2 : List (String × Json)) :
    jsAssign l (u1 ++ u2) = jsAssign (jsAssign l u1) u2 := by
  simp [jsAssign, List.foldl_append]

theorem findSome?_append {α β : Type} (l₁ l₂ : List α) (f : α → Option β) :
    (l₁ ++ l₂).findSome? f = oElse (l₁.findSome? f) (l₂.findSome? f) := by
  induction l₁ with
  | nil => simp [oElse]
  | cons x rest ih =>
    cases hf : f x with
    | some v => simp [List.findSome?, hf, oElse]
    | none => simp [List.findSome?, hf, ih]

/-! ## C3: the `allOf` merge -/

/-- Properties object contributed by one `allOf` branch (empty when absent,
falsy or not an object). -/
def branchProps (b : Json) : List (String × Json) :=
  match getTruthy b "properties" with
  | some (Json.obj pf) => pf
  | _ => []

/-- Required list contributed by one `allOf` branch. -/
def truthyReq (b : Json) : List Json :=
  match getTruthy b "required" with
  | some (Json.arr xs) => xs
  | _ => []

/-- A branch's `required`, when truthy, is an array of primitives (so the JS
`Set`-based de-duplication is by value, matching the structural model). -/
def reqWF (b : Json) : Bool :=
  match getTruthy b "required" with
  | some (Json.arr xs) => xs.all (fun j => match j with
      | Json.obj _ => false
      | Json.arr _ => false
      | _ => true)
  | some _ => false
  | none => true

/-- Key-by-key union with later branches overwriting earlier ones: the value
for `k` comes from the last branch whose `properties` carry `k`. -/
def lastPropWins (branches : List Json) (k : String) : Option Json :=
  branches.reverse.findSome? (fun b => lookupLast (branchProps b) k)

theorem mergeLoop_ok (branches : List Json) :
    (∀ b ∈ branches, reqWF b = true) →
    ∀ props req, mergeLoop branches props req =
      .ok (jsAssign props (branches.flatMap branchProps),
           req ++ branches.flatMap truthyReq) := by
  induction branches with
  | nil => intro _ props req; simp [mergeLoop, jsAssign]
  | cons b rest ih =>
    intro hwf props req
    have hb : reqWF b = true := hwf b (by simp)
    have hrest : ∀ x ∈ rest, reqWF x = true := fun x hx => hwf x (by simp [hx])
    have hprops' :
        (match getTruthy b "properties" with
         | some (Json.obj pf) => jsAssign props pf
         | _ => props) = jsAssign props (branchProps b) := by
      unfold branchProps
      cases hp : getTruthy b "properties" with
      | none => simp [jsAssign]
      | some v => cases v <;> simp [jsAssign]
    unfold reqWF at hb
    cases hr : getTruthy b "required" with
    | none =>
      have : truthyReq b = [] := by simp [truthyReq, hr]
      simp only [mergeLoop, hr, hprops']
      rw [ih hrest]
      simp [this, jsAssign_append]
    | some v =>
      cases v <;> simp [hr] at hb
      case arr xs =>
        have : truthyReq b = xs := by simp [truthyReq, hr]
        simp only [mergeLoop, hr, hprops']
        rw [ih hrest]
        simp [this, jsAssign_append]

theorem lookupLast_flatMap (l : List Json) (k : String) :
    lookupLast (l.flatMap branchProps) k =
      l.reverse.findSome? (fun b => lookupLast (branchProps b) k) := by
  induction l with
  | nil => simp [lookupLast]
  | cons b rest ih =>
    have h1 : (b :: rest).flatMap branchProps = branchProps b ++ rest.flatMap branchProps := by
      simp
    rw [h1]
    have h2 : lookupLast (branchProps b ++ rest.flatMap branchProps) k =
        oElse (lookupLast (rest.flatMap branchProps) k) (lookupLast (branchProps b) k) := by
      unfold lookupLast
      rw [List.reverse_append, lookup_append]
    rw [h2, ih]
    have h3 : (b :: rest).reverse = rest.reverse ++ [b] := by simp
    rw [h3, findSome?_append]
    have h4 : List.findSome? (fun x => lookupLast (branchProps x) k) [b] =
        lookupLast (branchProps b) k := by
      rw [List.findSome?]
      cases (lookupLast (branchProps b) k) <;> simp
    rw [h4]

/-- The spec's first `allOf` example branch: `{properties: {a}}`. -/
def exC3a : Json :=
  Json.obj [("properties", Json.obj [("a", Json.obj [("type", Json.str "number")])])]

/-- The spec's second `allOf` example branch: `{properties: {b}, required: [b]}`. -/
def exC3b : Json :=
  Json.obj [("properties", Json.obj [("b", Json.obj [("type", Json.str "string")])]),
    ("required", Json.arr [Json.str "b"])]

/-- The merge of the two example branches. -/
def exC3m : Json :=
  Json.obj [("type", Json.str "object"),
    ("properties", Json.obj [("a", Json.obj [("type", Json.str "number")]),
      ("b", Json.obj [("type", Json.str "string")])]),
    ("required", Json.arr [Json.str "b"])]

/-- C3: merging a list of `allOf` branches unions the branches' `properties`
dictionaries key by key with later branches overwriting earlier ones on a key
conflict (`lastPropWins`), and concatenates then de-duplicates the branches'
`required` lists (`dedupFirst` of the concatenation), the `required` key
being dropped when the result is empty.  Holds for both parser variants,
whose `mergeSchemas` bodies are identical.  The hypothesis `reqWF` says each
branch's `required`, when truthy, is an array of primitives (the JS invariant
under which the structural model of `Set` de-duplication is faithful). -/
theorem C3_mergeSchemas_union_overwrite_dedup (branches : List Json)
    (hwf : ∀ b ∈ branches, reqWF b = true) :
    ∃ props : List (String × Json),
      mergeSchemas branches = .ok (Json.obj ([("type", Json.str "object"),
          ("properties", Json.obj props)] ++
        (if (dedupFirst (branches.flatMap truthyReq)).isEmpty then []
         else [("required", Json.arr (dedupFirst (branches.flatMap truthyReq)))]))) ∧
      (∀ k, props.lookup k = lastPropWins branches k) := by
  refine ⟨jsAssign [] (branches.flatMap branchProps), ?_, ?_⟩
  · unfold mergeSchemas
    rw [mergeLoop_ok branches hwf [] []]
    simp
  · intro k
    rw [lookup_jsAssign, lookupLast_flatMap]
    unfold lastPropWins
    cases h : branches.reverse.findSome? (fun b => lookupLast (branchProps b) k) <;>
      simp [oElse]

/-- Witness for C3 at the spec's own example: the hypotheses hold for the two
example branches, the general theorem applies, and the merged schema is
exactly `{type: object, properties: {a, b}, required: ["b"]}`. -/
theorem C3_mergeSchemas_witness :
    (∀ b ∈ [exC3a, exC3b], reqWF b = true) ∧
    (∃ props : List (String × Json),
      mergeSchemas [exC3a, exC3b] = .ok (Json.obj ([("type", Json.str "object"),
          ("properties", Json.obj props)] ++
        (if (dedupFirst ([exC3a, exC3b].flatMap truthyReq)).isEmpty then []
         else [("required", Json.arr (dedupFirst ([exC3a, exC3b].flatMap truthyReq)))]))) ∧
      (∀ k, props.lookup k = lastPropWins [exC3a, exC3b] k)) ∧
    mergeSchemas [exC3a, exC3b] = .ok exC3m :=
  ⟨by decide, C3_mergeSchemas_union_overwrite_dedup [exC3a, exC3b] (by decide), by decide⟩

/-! ## C5: `$ref` pointer resolution -/

theorem splitSlashChars_noSlash (x : List Char) (hx : '/' ∉ x) :
    splitSlashChars x = [x] := by
  induction x with
  | nil => rfl
  | cons c cs ih =>
    have hc : c ≠ '/' := by
      intro h
      exact hx (h ▸ List.mem_cons_self _ _)
    have hcs : '/' ∉ cs := fun h => hx (List.mem_cons_of_mem _ h)
    simp [splitSlashChars, hc, ih hcs]

theorem splitSlashChars_append (x y : List Char) (hx : '/' ∉ x) :
    splitSlashChars (x ++ '/' :: y) = x :: splitSlashChars y := by
  induction x with
  | nil => simp [splitSlashChars]
  | cons c cs ih =>
    have hc : c ≠ '/' := by
      intro h
      exact hx (h ▸ List.mem_cons_self _ _)
    have hcs : '/' ∉ cs := fun h => hx (List.mem_cons_of_mem _ h)
    simp [splitSlashChars, hc, ih hcs]

theorem string_mk_data (s : String) : String.mk s.data = s := rfl

/-- Splitting a pointer `#/definitions/<name>` with a slash-free name. -/
theorem splitSlash_defs (name : String) (h : '/' ∉ name.data) :
    splitSlash ("#/definitions/" ++ name) = ["#", "definitions", name] := by
  unfold splitSlash
  have hdata : ("#/definitions/" ++ name).data =
      '#' :: '/' :: ("definitions".data ++ '/' :: name.data) := by
    simp [String.data_append]
  rw [hdata]
  have h1 : splitSlashChars ('#' :: '/' :: ("definitions".data ++ '/' :: name.data)) =
      ['#'] :: splitSlashChars ("definitions".data ++ '/' :: name.data) := by
    have := splitSlashChars_append ['#'] ("definitions".data ++ '/' :: name.data) (by decide)
    simpa using this
  rw [h1, splitSlashChars_append _ _ (by decide), splitSlashChars_noSlash _ h]
  simp [string_mk_data]

/-- Splitting a pointer `#/components/schemas/<name>` with a slash-free
name. -/
theorem splitSlash_comps (name : String) (h : '/' ∉ name.data) :
    splitSlash ("#/components/schemas/" ++ name) = ["#", "components", "schemas", name] := by
  unfold splitSlash
  have hdata : ("#/components/schemas/" ++ name).data =
      '#' :: '/' :: ("components".data ++ '/' :: ("schemas".data ++ '/' :: name.data)) := by
    simp [String.data_append]
  rw [hdata]
  have h1 : splitSlashChars
        ('#' :: '/' :: ("components".data ++ '/' :: ("schemas".data ++ '/' :: name.data))) =
      ['#'] :: splitSlashChars ("components".data ++ '/' :: ("schemas".data ++ '/' :: name.data)) := by
    have := splitSlashChars_append ['#']
      ("components".data ++ '/' :: ("schemas".data ++ '/' :: name.data)) (by decide)
    simpa using this
  rw [h1, splitSlashChars_append _ _ (by decide), splitSlashChars_append _ _ (by decide),
    splitSlashChars_noSlash _ h]
  simp [string_mk_data]

theorem walkRef2_cons (ref : String) (cur : Json) (part : String) (rest : List String) :
    walkRef2 ref cur (part :: rest) =
      match getTruthy cur part with
      | some v => walkRef2 ref v rest
      | none => .error ("Cannot resolve $ref: " ++ ref) := by
  simp only [walkRef2]
  cases hv : jsGet cur part with
  | some v =>
    cases htv : jsTruthy v with
    | true => simp [jsGetD, hv, htv, getTruthy]
    | false => simp [jsGetD, hv, htv, getTruthy]
  | none => simp [jsGetD, hv, getTruthy, jsTruthy]

theorem walkRef2_one (ref : String) (cur : Json) (part : String) :
    walkRef2 ref cur [part] =
      match getTruthy cur part with
      | some v => .ok v
      | none => .error ("Cannot resolve $ref: " ++ ref) := by
  rw [walkRef2_cons]
  cases getTruthy cur part <;> rfl

/-- C5 (amended to the second parser variant): resolution splits the pointer
after the leading `#`, rebases a Swagger 2.0 `definitions` pointer onto the
document's definitions store and an OpenAPI 3.x `components` pointer onto the
components store, walks segment by segment, and when any segment is absent
(or falsy) it fails with a resolution error instead of returning a
substitute value. -/
theorem C5_resolveRef2_rebase_and_error (doc : Json) (name : String)
    (hname : '/' ∉ name.data) :
    (resolveRef2 false doc ("#/definitions/" ++ name) =
      match getTruthy (jsGetD doc "definitions") name with
      | some v => .ok v
      | none => .error ("Cannot resolve $ref: " ++ ("#/definitions/" ++ name))) ∧
    (resolveRef2 true doc ("#/components/schemas/" ++ name) =
      match getTruthy (jsGetD doc "components") "schemas" with
      | some store =>
        (match getTruthy store name with
         | some v => .ok v
         | none => .error ("Cannot resolve $ref: " ++ ("#/components/schemas/" ++ name)))
      | none => .error ("Cannot resolve $ref: " ++ ("#/components/schemas/" ++ name))) ∧
    (∀ (ref : String) (cur : Json) (part : String) (rest : List String),
      jsTruthy (jsGetD cur part) = false →
      walkRef2 ref cur (part :: rest) = .error ("Cannot resolve $ref: " ++ ref)) := by
  refine ⟨?_, ?_, ?_⟩
  · unfold resolveRef2
    rw [splitSlash_defs name hname]
    norm_num
    rw [walkRef2_one]
  · unfold resolveRef2
    rw [splitSlash_comps name hname]
    norm_num
    rw [walkRef2_cons]
    cases hs : getTruthy (jsGetD doc "components") "schemas" with
    | some store =>
      simp only []
      rw [walkRef2_one]
    | none => rfl
  · intro ref cur part rest hfalsy
    simp only [walkRef2]
    simp [hfalsy]

/-- A Swagger 2.0 document with one definition `A`, used by the C5 and C2
concrete instances. -/
def exC5doc : Json :=
  Json.obj [("swagger", Json.str "2.0"),
    ("definitions", Json.obj [("A", Json.obj [("type", Json.str "object")])]),
    ("paths", Json.obj [("/x", Json.obj [("get", Json.obj [("operationId", Json.str "g")])])])]

/-- Witness for C5: at the concrete document, `#/definitions/A` resolves to
the stored definition and the error clause fires on a falsy step. -/
theorem C5_resolveRef2_witness :
    ('/' ∉ "A".data) ∧
    resolveRef2 false exC5doc ("#/definitions/" ++ "A") =
      .ok (Json.obj [("type", Json.str "object")]) ∧
    walkRef2 "#/definitions/Nope" (jsGetD exC5doc "definitions") ["Nope"] =
      .error "Cannot resolve $ref: #/definitions/Nope" := by
  refine ⟨by decide, ?_, ?_⟩
  · have h := (C5_resolveRef2_rebase_and_error exC5doc "A" (by decide)).1
    rw [h]
    decide
  · exact (C5_resolveRef2_rebase_and_error exC5doc "A" (by decide)).2.2
      "#/definitions/Nope" (jsGetD exC5doc "definitions") "Nope" [] (by decide)

/-- Counterexample for C5 as stated: the first parser variant's `resolveRef`,
given a pointer whose target is absent, returns the substitute
`{type: 'object'}` rather than failing with a resolution error (while the
second variant fails). -/
theorem C5_resolveRef1_substitute_counterexample :
    resolveRef1 exC5doc "#/definitions/Missing" = Json.obj [("type", Json.str "object")] ∧
    resolveRef2 false exC5doc "#/definitions/Missing" =
      .error "Cannot resolve $ref: #/definitions/Missing" := by
  exact ⟨by decide, by decide⟩

/-! ## C8: initialization validation (version detection, non-empty paths) -/

/-- `else if ('swagger' in this.schema && this.schema.swagger === '2.0')`
branch of the second parser variant's `detectVersion` (strict equality, so
only the string `"2.0"` passes; the `in` check is subsumed by the lookup). -/
def detectSwagger2 (doc : Json) : Except String Bool :=
  if jsGet doc "swagger" = some (Json.str "2.0") then .ok false
  else .error "Unsupported API specification version. Only OpenAPI 3.x and Swagger 2.0 are supported"

/-- Second parser variant `detectVersion`: `'openapi' in schema &&
schema.openapi.startsWith('3.')`, else the swagger check, else throw.
`in` on a non-object and `.startsWith` on a non-string are JS type errors. -/
def detectVersion2 (doc : Json) : Except String Bool :=
  match doc with
  | Json.obj _ =>
    (match jsGet doc "openapi" with
     | some (Json.str s) =>
       if s.startsWith "3." then .ok true
       else detectSwagger2 doc
     | some _ => .error "TypeError: startsWith is not a function"
     | none => detectSwagger2 doc)
  | _ => .error "TypeError: cannot use in operator on a non-object"

/-- First-occurrence de-duplication of key names (`Object.keys` lists each
key once). -/
def dedupKeysAux : List String → List String → List String
  | [], _ => []
  | x :: xs, seen =>
    if seen.contains x then dedupKeysAux xs seen
    else x :: dedupKeysAux xs (x :: seen)

/-- `Object.keys(v).length` for the paths emptiness check. -/
def jsKeysCount : Json → Nat
  | Json.obj fields => (dedupKeysAux (fields.map Prod.fst) []).length
  | Json.arr xs => xs.length
  | Json.str s => s.length
  | _ => 0

/-- Second parser variant `validateSchema`: reject a falsy or empty `paths`. -/
def validateSchema2 (doc : Json) : Except String Unit :=
  if jsTruthy (jsGetD doc "paths") = false then .error "No paths found in schema"
  else if jsKeysCount (jsGetD doc "paths") = 0 then .error "No paths found in schema"
  else .ok ()

/-- The second parser variant's `initialize` after the document is parsed:
`detectVersion()` then `validateSchema()`; any thrown error aborts before a
tool is generated. -/
def initCheck2 (doc : Json) : Except String Bool :=
  match detectVersion2 doc with
  | .error e => .error e
  | .ok v3 =>
    match validateSchema2 doc with
    | .error e => .error e
    | .ok _ => .ok v3

/-- First parser variant `validateSchema`: `schema.openapi?.startsWith('3.')`
(optional chaining, so a `null`/`undefined`/absent marker is merely falsy
while another non-string is a type error), `schema.swagger === '2.0'`, then
the same paths check. -/
def validateSchema1 (doc : Json) : Except String Unit :=
  match
    (match jsGet doc "openapi" with
     | some (Json.str s) => Except.ok (s.startsWith "3.")
     | some Json.null => Except.ok false
     | some Json.undef => Except.ok false
     | some _ => Except.error "TypeError: startsWith is not a function"
     | none => Except.ok false : Except String Bool)
  with
  | .error e => .error e
  | .ok is3 =>
    if is3 = false ∧ jsGet doc "swagger" ≠ some (Json.str "2.0") then
      .error "Unsupported API spec version"
    else if jsTruthy (jsGetD doc "paths") = false then .error "No paths found in schema"
    else if jsKeysCount (jsGetD doc "paths") = 0 then .error "No paths found in schema"
    else .ok ()

/-- The spec's version condition: an `openapi` marker beginning with `3.` or
a `swagger` marker equal to `2.0`. -/
def versionMarkerOk (doc : Json) : Prop :=
  (∃ s, jsGet doc "openapi" = some (Json.str s) ∧ s.startsWith "3.") ∨
  jsGet doc "swagger" = some (Json.str "2.0")

/-- The spec's paths condition: a non-empty `paths` mapping. -/
def pathsNonempty (doc : Json) : Prop :=
  ∃ fs, jsGet doc "paths" = some (Json.obj fs) ∧ fs ≠ []

/-- Document well-formedness: the `paths` field, when present, is an object
(a mapping, as the data model requires). -/
def pathsFieldWF (doc : Json) : Bool :=
  match jsGet doc "paths" with
  | none => true
  | some (Json.obj _) => true
  | some _ => false

/-- Document well-formedness: the `openapi` marker, when present, is a
string. -/
def versionFieldWF (doc : Json) : Bool :=
  match jsGet doc "openapi" with
  | none => true
  | some (Json.str _) => true
  | some _ => false

theorem isOk_ok {ε α : Type} (a : α) : (Except.ok a : Except ε α).isOk = true := rfl

theorem isOk_error {ε α : Type} (e : ε) : (Except.error e : Except ε α).isOk = false := rfl

theorem validateSchema2_iff (doc : Json) (hp : pathsFieldWF doc = true) :
    (validateSchema2 doc).isOk = true ↔ pathsNonempty doc := by
  unfold validateSchema2 pathsNonempty
  unfold pathsFieldWF at hp
  cases hpaths : jsGet doc "paths" with
  | none => simp [jsGetD, hpaths, jsTruthy, isOk_error]
  | some v =>
    rw [hpaths] at hp
    cases v <;> simp at hp
    case obj fields =>
      cases fields with
      | nil => simp [jsGetD, hpaths, jsTruthy, jsKeysCount, dedupKeysAux, isOk_error]
      | cons kv rest =>
        have hcount : jsKeysCount (Json.obj (kv :: rest)) ≠ 0 := by
          simp [jsKeysCount, dedupKeysAux]
        simp [jsGetD, hpaths, jsTruthy, hcount, isOk_ok]

theorem detectVersion2_iff (doc : Json) (hv : versionFieldWF doc = true) :
    (detectVersion2 doc).isOk = true ↔ versionMarkerOk doc := by
  unfold detectVersion2
  unfold versionFieldWF at hv
  cases doc with
  | obj fields =>
    cases hoa : jsGet (Json.obj fields) "openapi" with
    | none =>
      simp only []
      by_cases hs : jsGet (Json.obj fields) "swagger" = some (Json.str "2.0")
      · unfold detectSwagger2
        rw [if_pos hs]
        simp only [isOk_ok, true_iff]
        exact Or.inr hs
      · unfold detectSwagger2
        rw [if_neg hs]
        simp only [isOk_error, Bool.false_eq_true, false_iff]
        rintro (⟨s', hs', _⟩ | h2)
        · simp [hoa] at hs'
        · exact absurd h2 hs
    | some v =>
      rw [hoa] at hv
      cases v <;> simp at hv
      case str s =>
        simp only []
        cases h3 : s.startsWith "3." with
        | true =>
          refine ⟨fun _ => Or.inl ⟨s, hoa, h3⟩, fun _ => rfl⟩
        | false =>
          simp only [Bool.false_eq_true, if_false]
          by_cases hs : jsGet (Json.obj fields) "swagger" = some (Json.str "2.0")
          · unfold detectSwagger2
            rw [if_pos hs]
            simp only [isOk_ok, true_iff]
            exact Or.inr hs
          · unfold detectSwagger2
            rw [if_neg hs]
            simp only [isOk_error, Bool.false_eq_true, false_iff]
            rintro (⟨s', hs', h3'⟩ | h2)
            · rw [hoa] at hs'
              have hss : s = s' := by
                injection hs' with h
                injection h
              rw [← hss] at h3'
              rw [h3'] at h3
              cases h3
            · exact absurd h2 hs
  | null => simp [versionMarkerOk, jsGet, isOk_error]
  | undef => simp [versionMarkerOk, jsGet, isOk_error]
  | bool b => simp [versionMarkerOk, jsGet, isOk_error]
  | num n => simp [versionMarkerOk, jsGet, isOk_error]
  | str s => simp [versionMarkerOk, jsGet, isOk_error]
  | arr xs => simp [versionMarkerOk, jsGet, isOk_error]

theorem validateSchema1_iff (doc : Json) (hp : pathsFieldWF doc = true)
    (hv : versionFieldWF doc = true) :
    (validateSchema1 doc).isOk = true ↔ (versionMarkerOk doc ∧ pathsNonempty doc) := by
  have htail : (if jsTruthy (jsGetD doc "paths") = false then
        (Except.error "No paths found in schema" : Except String Unit)
      else if jsKeysCount (jsGetD doc "paths") = 0 then Except.error "No paths found in schema"
      else Except.ok ()) = validateSchema2 doc := rfl
  unfold validateSchema1
  unfold versionFieldWF at hv
  cases hoa : jsGet doc "openapi" with
  | none =>
    by_cases hs : jsGet doc "swagger" = some (Json.str "2.0")
    · simp [hs, htail, validateSchema2_iff doc hp, versionMarkerOk, hoa]
    · simp [hs, versionMarkerOk, hoa, isOk_error]
  | some v =>
    rw [hoa] at hv
    cases v <;> simp at hv
    case str s =>
      cases h3 : s.startsWith "3." with
      | true => simp [h3, htail, validateSchema2_iff doc hp, versionMarkerOk, hoa]
      | false =>
        by_cases hs : jsGet doc "swagger" = some (Json.str "2.0")
        · simp [h3, hs, htail, validateSchema2_iff doc hp, versionMarkerOk, hoa]
        · simp [h3, hs, versionMarkerOk, hoa, isOk_error]

/-- C8: initialization succeeds exactly when the document carries an
`openapi` marker beginning with `3.` or a `swagger` marker equal to `2.0`
and has a non-empty `paths` mapping; a document violating either condition
is rejected with a schema-parse error thrown before any tool is generated
(the second parser variant's `detectVersion`/`validateSchema` chain, and the
first variant's `validateSchema`, which checks the same two conditions).
The hypotheses say `paths`, when present, is an object and `openapi`, when
present, is a string, as the data model requires of a schema document. -/
theorem C8_validation_version_and_paths (doc : Json)
    (hp : pathsFieldWF doc = true) (hv : versionFieldWF doc = true) :
    ((initCheck2 doc).isOk = true ↔ (versionMarkerOk doc ∧ pathsNonempty doc)) ∧
    ((validateSchema1 doc).isOk = true ↔ (versionMarkerOk doc ∧ pathsNonempty doc)) := by
  refine ⟨?_, validateSchema1_iff doc hp hv⟩
  constructor
  · intro h
    unfold initCheck2 at h
    cases hd : detectVersion2 doc with
    | error e => rw [hd] at h; simp [Except.isOk, Except.toBool] at h
    | ok v3 =>
      cases hval : validateSchema2 doc with
      | error e => rw [hd, hval] at h; simp [Except.isOk, Except.toBool] at h
      | ok u =>
        refine ⟨?_, ?_⟩
        · rw [← detectVersion2_iff doc hv, hd]
          rfl
        · rw [← validateSchema2_iff doc hp, hval]
          rfl
  · intro ⟨h1, h2⟩
    rw [← detectVersion2_iff doc hv] at h1
    rw [← validateSchema2_iff doc hp] at h2
    unfold initCheck2
    cases hd : detectVersion2 doc with
    | error e => rw [hd] at h1; simp [Except.isOk, Except.toBool] at h1
    | ok v3 =>
      cases hval : validateSchema2 doc with
      | error e => rw [hval] at h2; simp [Except.isOk, Except.toBool] at h2
      | ok u => rfl

/-- Witness for C8: a well-formed OpenAPI 3.0 document with one path passes
both validations, and a versionless document is rejected by both. -/
theorem C8_validation_witness :
    (pathsFieldWF exC5doc = true) ∧ (versionFieldWF exC5doc = true) ∧
    ((initCheck2 exC5doc).isOk = true ↔ (versionMarkerOk exC5doc ∧ pathsNonempty exC5doc)) ∧
    ((validateSchema1 exC5doc).isOk = true ↔
      (versionMarkerOk exC5doc ∧ pathsNonempty exC5doc)) ∧
    initCheck2 exC5doc = .ok false :=
  ⟨by decide, by decide,
   (C8_validation_version_and_paths exC5doc (by decide) (by decide)).1,
   (C8_validation_version_and_paths exC5doc (by decide) (by decide)).2,
   by decide⟩

/-! ## C2 / C9: termination and determinism of the resolvers -/

theorem collectOks_congr (xs : List Json) (f g : Json → Except RBad Json)
    (hfg : ∀ x ∈ xs, f x ≠ .error .out → g x = f x)
    (hno : collectOks (xs.map f) ≠ .error .out) :
    collectOks (xs.map g) = collectOks (xs.map f) := by
  induction xs with
  | nil => rfl
  | cons x rest ih =>
    simp only [List.map_cons]
    cases hfx : f x with
    | ok v =>
      have hgx : g x = f x := hfg x (by simp) (by rw [hfx]; simp)
      rw [hgx, hfx]
      simp only [collectOks]
      have hrest : collectOks (rest.map f) ≠ .error .out := by
        intro hcon
        apply hno
        simp [List.map_cons, collectOks, hfx, hcon, Except.map]
      rw [ih (fun y hy => hfg y (by simp [hy])) hrest]
    | error b =>
      cases b with
      | out =>
        exact absurd (by simp [collectOks, hfx]) hno
      | err m =>
        have hgx : g x = f x := hfg x (by simp) (by rw [hfx]; simp)
        rw [hgx, hfx]
        rfl

theorem collectFieldOks_congr (xs : List (String × Json)) (f g : Json → Except RBad Json)
    (hfg : ∀ kv ∈ xs, f kv.2 ≠ .error .out → g kv.2 = f kv.2)
    (hno : collectFieldOks (xs.map (fun kv => (kv.1, f kv.2))) ≠ .error .out) :
    collectFieldOks (xs.map (fun kv => (kv.1, g kv.2))) =
      collectFieldOks (xs.map (fun kv => (kv.1, f kv.2))) := by
  induction xs with
  | nil => rfl
  | cons kv rest ih =>
    obtain ⟨k1, v1⟩ := kv
    simp only [List.map_cons]
    cases hfx : f v1 with
    | ok v =>
      have hgx : g v1 = f v1 := hfg (k1, v1) (by simp) (by rw [hfx]; simp)
      rw [hgx, hfx]
      simp only [collectFieldOks]
      have hrest : collectFieldOks (rest.map (fun kv => (kv.1, f kv.2))) ≠ .error .out := by
        intro hcon
        apply hno
        simp [List.map_cons, collectFieldOks, hfx, hcon, Except.map]
      rw [ih (fun y hy => hfg y (by simp [hy])) hrest]
    | error b =>
      cases b with
      | out =>
        exact absurd (by simp [collectFieldOks, hfx]) hno
      | err m =>
        have hgx : g v1 = f v1 := hfg (k1, v1) (by simp) (by rw [hfx]; simp)
        rw [hgx, hfx]
        rfl

theorem resolve1Body_congr (doc : Json) (r1 r2 : Json → List String → Except RBad Json)
    (h : ∀ s v, r1 s v ≠ .error .out → r2 s v = r1 s v)
    (schema : Json) (visited : List String)
    (hno : resolve1Body doc r1 schema visited ≠ .error .out) :
    resolve1Body doc r2 schema visited = resolve1Body doc r1 schema visited := by
  unfold resolve1Body at hno ⊢
  by_cases hf : jsTruthy schema = false
  · rw [if_pos hf]
    rw [if_pos hf]
  · rw [if_neg hf] at hno
    rw [if_neg hf, if_neg hf]
    cases href : getTruthy schema "$ref" with
    | some v =>
      rw [href] at hno
      cases v with
      | null => rfl
      | undef => rfl
      | bool b => rfl
      | num n => rfl
      | arr a => rfl
      | obj o => rfl
      | str r =>
        simp only [] at hno ⊢
        by_cases hvis : visited.contains r
        · rw [if_pos hvis]
          rw [if_pos hvis]
        · rw [if_neg hvis] at hno
          rw [if_neg hvis, if_neg hvis]
          exact h _ _ hno
    | none =>
      rw [href] at hno
      cases hall : getTruthy schema "allOf" with
      | some v =>
        rw [hall] at hno
        cases v with
        | null => rfl
        | undef => rfl
        | bool b => rfl
        | num n => rfl
        | str s => rfl
        | obj o => rfl
        | arr branches =>
          simp only [] at hno ⊢
          have hcno : collectOks (branches.map (fun s => r1 s visited)) ≠ .error .out := by
            intro hcon
            rw [hcon] at hno
            exact hno rfl
          rw [collectOks_congr branches (fun s => r1 s visited) (fun s => r2 s visited)
            (fun x _ hx => h x visited hx) hcno]
      | none =>
        rw [hall] at hno
        cases hone : (getTruthy schema "oneOf").orElse (fun _ => getTruthy schema "anyOf") with
        | some v =>
          rw [hone] at hno
          cases v with
          | null => rfl
          | undef => rfl
          | bool b => rfl
          | num n => rfl
          | str s => rfl
          | obj o => rfl
          | arr xs =>
            simp only [] at hno ⊢
            exact h _ _ hno
        | none =>
          rw [hone] at hno
          cases schema with
          | null => rfl
          | undef => rfl
          | bool b => rfl
          | num n => rfl
          | str s => rfl
          | arr a => rfl
          | obj fields =>
            simp only [] at hno ⊢
            cases hp : getTruthy (Json.obj fields) "properties" with
            | some v =>
              rw [hp] at hno
              cases v with
              | null => rfl
              | undef => rfl
              | bool b => rfl
              | num n => rfl
              | str s => rfl
              | arr a => rfl
              | obj pf =>
                simp only [] at hno ⊢
                have hcno : collectFieldOks (pf.map (fun kv => (kv.1, r1 kv.2 visited))) ≠
                    .error .out := by
                  intro hcon
                  rw [hcon] at hno
                  exact hno rfl
                rw [collectFieldOks_congr pf (fun s => r1 s visited) (fun s => r2 s visited)
                  (fun kv _ hkv => h kv.2 visited hkv) hcno]
                cases hcf : collectFieldOks (pf.map (fun kv => (kv.1, r1 kv.2 visited))) with
                | error b => rfl
                | ok newPf =>
                  rw [hcf] at hno
                  simp only [] at hno ⊢
                  cases hit : getTruthy (Json.obj (setKey fields "properties" (Json.obj newPf)))
                      "items" with
                  | some it =>
                    rw [hit] at hno
                    simp only [] at hno ⊢
                    have hitno : r1 it visited ≠ .error .out := by
                      intro hcon
                      rw [hcon] at hno
                      exact hno rfl
                    rw [h it visited hitno]
                  | none => rfl
            | none =>
              rw [hp] at hno
              cases hit : getTruthy (Json.obj fields) "items" with
              | some it =>
                rw [hit] at hno
                simp only [] at hno ⊢
                have hitno : r1 it visited ≠ .error .out := by
                  intro hcon
                  rw [hcon] at hno
                  exact hno rfl
                rw [h it visited hitno]
              | none => rfl

theorem resolve1_mono_succ (doc : Json) : ∀ (fuel : Nat) (schema : Json) (visited : List String),
    resolve1 doc fuel schema visited ≠ .error .out →
    resolve1 doc (fuel + 1) schema visited = resolve1 doc fuel schema visited := by
  intro fuel
  induction fuel with
  | zero => intro s v h; exact absurd rfl h
  | succ f ih =>
    intro s v h
    rw [resolve1_succ] at h
    rw [resolve1_succ, resolve1_succ]
    exact resolve1Body_congr doc (resolve1 doc f) (resolve1 doc (f + 1))
      (fun s' v' h' => ih s' v' h') s v h

theorem resolve2Body_congr (isV3 : Bool) (doc : Json)
    (r1 r2 : Json → Except RBad Json)
    (h : ∀ s, r1 s ≠ .error .out → r2 s = r1 s)
    (schema : Json)
    (hno : resolve2Body isV3 doc r1 schema ≠ .error .out) :
    resolve2Body isV3 doc r2 schema = resolve2Body isV3 doc r1 schema := by
  unfold resolve2Body at hno ⊢
  by_cases hf : jsTruthy schema = false
  · rw [if_pos hf]
    rw [if_pos hf]
  · rw [if_neg hf] at hno
    rw [if_neg hf, if_neg hf]
    cases href : getTruthy schema "$ref" with
    | some v =>
      rw [href] at hno
      cases v with
      | null => rfl
      | undef => rfl
      | bool b => rfl
      | num n => rfl
      | arr a => rfl
      | obj o => rfl
      | str r =>
        simp only [] at hno ⊢
        cases hrr : resolveRef2 isV3 doc r with
        | error e => rfl
        | ok target =>
          rw [hrr] at hno
          simp only [] at hno ⊢
          exact h _ hno
    | none =>
      rw [href] at hno
      cases hall : getTruthy schema "allOf" with
      | some v =>
        rw [hall] at hno
        cases v with
        | null => rfl
        | undef => rfl
        | bool b => rfl
        | num n => rfl
        | str s => rfl
        | obj o => rfl
        | arr branches =>
          simp only [] at hno ⊢
          have hcno : collectOks (branches.map (fun s => r1 s)) ≠ .error .out := by
            intro hcon
            rw [hcon] at hno
            exact hno rfl
          rw [collectOks_congr branches (fun s => r1 s) (fun s => r2 s)
            (fun x _ hx => h x hx) hcno]
      | none =>
        rw [hall] at hno
        cases hone : (getTruthy schema "oneOf").orElse (fun _ => getTruthy schema "anyOf") with
        | some v =>
          rw [hone] at hno
          cases v with
          | null => rfl
          | undef => rfl
          | bool b => rfl
          | num n => rfl
          | str s => rfl
          | obj o => rfl
          | arr xs =>
            simp only [] at hno ⊢
            exact h _ hno
        | none =>
          rw [hone] at hno
          cases schema with
          | null => rfl
          | undef => rfl
          | bool b => rfl
          | num n => rfl
          | str s => rfl
          | arr a => rfl
          | obj fields =>
            simp only [] at hno ⊢
            cases hp : getTruthy (Json.obj fields) "properties" with
            | some v =>
              rw [hp] at hno
              cases v with
              | null => rfl
              | undef => rfl
              | bool b => rfl
              | num n => rfl
              | str s => rfl
              | arr a => rfl
              | obj pf =>
                simp only [] at hno ⊢
                have hcno : collectFieldOks (pf.map (fun kv => (kv.1, r1 kv.2))) ≠
                    .error .out := by
                  intro hcon
                  rw [hcon] at hno
                  exact hno rfl
                rw [collectFieldOks_congr pf (fun s => r1 s) (fun s => r2 s)
                  (fun kv _ hkv => h kv.2 hkv) hcno]
                cases hcf : collectFieldOks (pf.map (fun kv => (kv.1, r1 kv.2))) with
                | error b => rfl
                | ok newPf =>
                  rw [hcf] at hno
                  simp only [] at hno ⊢
                  cases hit : getTruthy (Json.obj (setKey fields "properties" (Json.obj newPf)))
                      "items" with
                  | some it =>
                    rw [hit] at hno
                    simp only [] at hno ⊢
                    have hitno : r1 it ≠ .error .out := by
                      intro hcon
                      rw [hcon] at hno
                      exact hno rfl
                    rw [h it hitno]
                  | none => rfl
            | none =>
              rw [hp] at hno
              cases hit : getTruthy (Json.obj fields) "items" with
              | some it =>
                rw [hit] at hno
                simp only [] at hno ⊢
                have hitno : r1 it ≠ .error .out := by
                  intro hcon
                  rw [hcon] at hno
                  exact hno rfl
                rw [h it hitno]
              | none => rfl

theorem resolve2_mono_succ (isV3 : Bool) (doc : Json) :
    ∀ (fuel : Nat) (schema : Json),
    resolve2 isV3 doc fuel schema ≠ .error .out →
    resolve2 isV3 doc (fuel + 1) schema = resolve2 isV3 doc fuel schema := by
  intro fuel
  induction fuel with
  | zero => intro s h; exact absurd rfl h
  | succ f ih =>
    intro s h
    rw [resolve2_succ] at h
    rw [resolve2_succ, resolve2_succ]
    exact resolve2Body_congr isV3 doc (resolve2 isV3 doc f) (resolve2 isV3 doc (f + 1))
      (fun s' h' => ih s' h') s h

theorem resolve2_mono (isV3 : Bool) (doc : Json) (f1 f2 : Nat) (hle : f1 ≤ f2)
    (schema : Json)
    (h : resolve2 isV3 doc f1 schema ≠ .error .out) :
    resolve2 isV3 doc f2 schema = resolve2 isV3 doc f1 schema := by
  induction f2 with
  | zero =>
    have h0 : f1 = 0 := Nat.le_zero.mp hle
    rw [h0]
  | succ n ihn =>
    rcases Nat.lt_or_ge f1 (n + 1) with hlt | hge
    · have hle' : f1 ≤ n := Nat.lt_succ_iff.mp hlt
      have heq := ihn hle'
      have hn : resolve2 isV3 doc n schema ≠ .error .out := by
        rw [heq]; exact h
      rw [resolve2_mono_succ isV3 doc n schema hn, heq]
    · have : f1 = n + 1 := Nat.le_antisymm hle hge
      rw [this]

theorem resolve1_mono (doc : Json) (f1 f2 : Nat) (hle : f1 ≤ f2)
    (schema : Json) (visited : List String)
    (h : resolve1 doc f1 schema visited ≠ .error .out) :
    resolve1 doc f2 schema visited = resolve1 doc f1 schema visited := by
  induction f2 with
  | zero =>
    have h0 : f1 = 0 := Nat.le_zero.mp hle
    rw [h0]
  | succ n ihn =>
    rcases Nat.lt_or_ge f1 (n + 1) with hlt | hge
    · have hle' : f1 ≤ n := Nat.lt_succ_iff.mp hlt
      have heq := ihn hle'
      have hn : resolve1 doc n schema visited ≠ .error .out := by
        rw [heq]; exact h
      rw [resolve1_mono_succ doc n schema visited hn, heq]
    · have : f1 = n + 1 := Nat.le_antisymm hle hge
      rw [this]

/-- C9: the resolvers are deterministic functions of the schema fragment and
the document.  In the fueled embedding this is fuel-irrelevance: any two runs
that complete (for both parser variants) produce equal outputs, so resolving
a fragment twice against an unchanged document yields deep-equal results. -/
theorem C9_resolver_deterministic (isV3 : Bool) (doc frag : Json) (f1 f2 : Nat) :
    (resolve1 doc f1 frag [] ≠ .error .out → resolve1 doc f2 frag [] ≠ .error .out →
      resolve1 doc f1 frag [] = resolve1 doc f2 frag []) ∧
    (resolve2 isV3 doc f1 frag ≠ .error .out → resolve2 isV3 doc f2 frag ≠ .error .out →
      resolve2 isV3 doc f1 frag = resolve2 isV3 doc f2 frag) := by
  constructor
  · intro h1 h2
    rcases Nat.le_total f1 f2 with h | h
    · rw [resolve1_mono doc f1 f2 h frag [] h1]
    · rw [resolve1_mono doc f2 f1 h frag [] h2]
  · intro h1 h2
    rcases Nat.le_total f1 f2 with h | h
    · rw [resolve2_mono isV3 doc f1 f2 h frag h1]
    · rw [resolve2_mono isV3 doc f2 f1 h frag h2]

/-! ### Support lemmas for resolver termination (C2) -/

theorem jsizeF_mem {kv : String × Json} {fields : List (String × Json)} (h : kv ∈ fields) :
    1 + jsize kv.2 ≤ jsizeF fields := by
  induction fields with
  | nil => simp at h
  | cons kv' rest ih =>
    rcases List.mem_cons.mp h with rfl | h
    · simp [jsizeF]
    · have := ih h
      simp [jsizeF]
      omega

theorem refsInF_mem {kv : String × Json} {fields : List (String × Json)} (h : kv ∈ fields) :
    ∀ x ∈ refsIn kv.2, x ∈ refsInF fields := by
  induction fields with
  | nil => simp at h
  | cons kv' rest ih =>
    intro x hx
    rcases List.mem_cons.mp h with rfl | h
    · simp [refsInF, List.mem_append]
      tauto
    · simp [refsInF, List.mem_append]
      have := ih h x hx
      tauto

theorem getTruthy_some {j : Json} {k : String} {v : Json} (h : getTruthy j k = some v) :
    jsGet j k = some v := by
  unfold getTruthy at h
  cases hg : jsGet j k with
  | none => rw [hg] at h; cases h
  | some w =>
    rw [hg] at h
    by_cases ht : jsTruthy w
    · simp [ht] at h
      rw [h]
    · simp [ht] at h

theorem ref_mem_refsInF {fields : List (String × Json)} {r : String}
    (h : fields.lookup "$ref" = some (Json.str r)) : r ∈ refsInF fields := by
  induction fields with
  | nil => simp [List.lookup] at h
  | cons kv rest ih =>
    rw [List.lookup] at h
    by_cases hk : ("$ref" : String) == kv.1
    · simp [hk] at h
      have hk' : kv.1 = "$ref" := by
        have := eq_of_beq hk
        exact this.symm
      obtain ⟨k1, v1⟩ := kv
      simp at hk'
      subst hk'
      simp at h
      subst h
      simp [refsInF]
    · simp [hk] at h
      have := ih h
      simp [refsInF, List.mem_append]
      tauto

theorem refsIn_ref {schema : Json} {r : String}
    (h : jsGet schema "$ref" = some (Json.str r)) : r ∈ refsIn schema := by
  cases schema <;> simp [jsGet] at h
  case obj fields =>
    simpa [refsIn] using ref_mem_refsInF h

theorem jsize_jsGetD (cur : Json) (k : String) : jsize (jsGetD cur k) ≤ jsize cur := by
  unfold jsGetD
  cases hg : jsGet cur k with
  | none => simpa [jsize] using jsize_pos cur
  | some v =>
    simp only [Option.getD_some]
    exact Nat.le_of_lt (jsize_jsGet hg)

theorem refsIn_jsGetD (cur : Json) (k : String) :
    ∀ x ∈ refsIn (jsGetD cur k), x ∈ refsIn cur := by
  unfold jsGetD
  cases hg : jsGet cur k with
  | none => simp [refsIn]
  | some v =>
    simp only [Option.getD_some]
    exact refsIn_jsGet hg

theorem jsize_walkRef1 : ∀ (parts : List String) (cur : Json),
    jsize (walkRef1 cur parts) ≤ jsize cur + 3 := by
  intro parts
  induction parts with
  | nil => intro cur; simp [walkRef1]
  | cons part rest ih =>
    intro cur
    unfold walkRef1
    by_cases ht : jsTruthy (jsGetD cur part)
    · rw [if_pos ht]
      have h1 := ih (jsGetD cur part)
      have h2 := jsize_jsGetD cur part
      omega
    · rw [if_neg ht]
      have := jsize_pos cur
      simp [jsize, jsizeF]

theorem refsIn_walkRef1 : ∀ (parts : List String) (cur : Json),
    ∀ x ∈ refsIn (walkRef1 cur parts), x ∈ refsIn cur := by
  intro parts
  induction parts with
  | nil => intro cur x hx; simpa [walkRef1] using hx
  | cons part rest ih =>
    intro cur x hx
    unfold walkRef1 at hx
    by_cases ht : jsTruthy (jsGetD cur part)
    · rw [if_pos ht] at hx
      exact refsIn_jsGetD cur part x (ih (jsGetD cur part) x hx)
    · rw [if_neg ht] at hx
      simp [refsIn, refsInF] at hx

theorem jsize_resolveRef1 (doc : Json) (r : String) :
    jsize (resolveRef1 doc r) ≤ jsize doc + 3 :=
  jsize_walkRef1 _ doc

theorem refsIn_resolveRef1 (doc : Json) (r : String) :
    ∀ x ∈ refsIn (resolveRef1 doc r), x ∈ refsIn doc :=
  refsIn_walkRef1 _ doc

theorem collectOks_out_mem : ∀ l : List (Except RBad Json),
    collectOks l = .error .out → Except.error RBad.out ∈ l := by
  intro l
  induction l with
  | nil => intro h; cases h
  | cons x rest ih =>
    intro h
    cases x with
    | ok v =>
      simp only [collectOks] at h
      cases hc : collectOks rest with
      | ok vs => rw [hc] at h; cases h
      | error b =>
        rw [hc] at h
        cases b with
        | err m => cases h
        | out => exact List.mem_cons_of_mem _ (ih hc)
    | error b =>
      simp only [collectOks] at h
      cases b with
      | err m => cases h
      | out => exact List.mem_cons_self _ _

theorem collectFieldOks_out_mem : ∀ l : List (String × Except RBad Json),
    collectFieldOks l = .error .out → ∃ kv ∈ l, kv.2 = Except.error RBad.out := by
  intro l
  induction l with
  | nil => intro h; cases h
  | cons kv rest ih =>
    intro h
    obtain ⟨k1, x⟩ := kv
    cases x with
    | ok v =>
      simp only [collectFieldOks] at h
      cases hc : collectFieldOks rest with
      | ok vs => rw [hc] at h; cases h
      | error b =>
        rw [hc] at h
        cases b with
        | err m => cases h
        | out =>
          obtain ⟨kv', hmem, hout⟩ := ih hc
          exact ⟨kv', List.mem_cons_of_mem _ hmem, hout⟩
    | error b =>
      simp only [collectFieldOks] at h
      cases b with
      | err m => cases h
      | out => exact ⟨(k1, .error .out), List.mem_cons_self _ _, rfl⟩

theorem cardDrop (R : Finset String) (visited : List String) (r : String)
    (hr : r ∈ R) (hv : r ∉ visited) :
    (R \ (r :: visited).toFinset).card < (R \ visited.toFinset).card := by
  have h1 : (r :: visited).toFinset = insert r visited.toFinset := List.toFinset_cons
  rw [h1, Finset.sdiff_insert]
  apply Finset.card_erase_lt_of_mem
  rw [Finset.mem_sdiff]
  exact ⟨hr, fun hm => hv (List.mem_toFinset.mp hm)⟩

theorem measure_step (c2 c jd jt js f : Nat)
    (hdrop : c2 < c) (hsize : jt ≤ jd + 3) (hjs : 1 ≤ js)
    (hmu : c * (jd + 9) + js < f + 1) :
    c2 * (jd + 9) + jt < f := by
  have h2 : c2 * (jd + 9) + (jd + 9) ≤ c * (jd + 9) := by
    have h1 : c2 + 1 ≤ c := hdrop
    have := Nat.mul_le_mul_right (jd + 9) h1
    rw [Nat.succ_mul] at this
    exact this
  generalize hA : c2 * (jd + 9) = A at h2 ⊢
  generalize hB : c * (jd + 9) = B at h2 hmu
  omega

theorem measure_sub (c jd js jc f : Nat)
    (hc : jc < js) (hmu : c * (jd + 9) + js < f + 1) :
    c * (jd + 9) + jc < f := by
  generalize hA : c * (jd + 9) = A at hmu ⊢
  omega

theorem optOrElse_eq_some {o1 o2 : Option Json} {v : Json}
    (h : o1.orElse (fun _ => o2) = some v) :
    o1 = some v ∨ (o1 = none ∧ o2 = some v) := by
  cases o1 with
  | some a =>
    left
    simpa using h
  | none =>
    right
    exact ⟨rfl, by simpa using h⟩

theorem jsize_headD {xs : List Json} : jsize (xs.headD Json.undef) ≤ jsize (Json.arr xs) := by
  cases xs with
  | nil => simp [jsize, jsizeL]
  | cons h t =>
    have h1 : jsize h ≤ jsizeL (h :: t) := jsizeL_mem (List.mem_cons_self _ _)
    simp [jsize]
    omega

theorem refsIn_headD {xs : List Json} :
    ∀ x ∈ refsIn (xs.headD Json.undef), x ∈ refsIn (Json.arr xs) := by
  cases xs with
  | nil => simp [refsIn]
  | cons h t =>
    intro x hx
    exact refsIn_arrElem (List.mem_cons_self _ _) x hx

theorem contains_of_mem_str {r : String} {l : List String} (h : r ∈ l) :
    l.contains r = true := by
  simpa using h

/-- Sufficient fuel for the first parser variant's resolver: with the
visited-set cycle check, the recursion depth is bounded by the number of
reference strings not yet on the active path times a bound on the size of
any reference target, plus the structural size of the current fragment. -/
theorem resolve1_sufficient (doc : Json) (R : Finset String)
    (hdocR : ∀ x ∈ refsIn doc, x ∈ R) :
    ∀ (fuel : Nat) (schema : Json) (visited : List String),
      (∀ x ∈ refsIn schema, x ∈ R) →
      (R \ visited.toFinset).card * (jsize doc + 9) + jsize schema < fuel →
      resolve1 doc fuel schema visited ≠ .error .out := by
  intro fuel
  induction fuel using Nat.strong_induction_on with
  | _ fuel ih =>
    intro schema visited hrefs hmu
    cases fuel with
    | zero => exact absurd hmu (Nat.not_lt_zero _)
    | succ f =>
      rw [resolve1_succ]
      unfold resolve1Body
      by_cases hf : jsTruthy schema = false
      · rw [if_pos hf]
        simp
      · rw [if_neg hf]
        cases href : getTruthy schema "$ref" with
        | some v =>
          cases v with
          | null => simp
          | undef => simp
          | bool b => simp
          | num n => simp
          | arr a => simp
          | obj o => simp
          | str r =>
            simp only []
            by_cases hvis : visited.contains r
            · rw [if_pos hvis]
              simp
            · rw [if_neg hvis]
              have hjr : jsGet schema "$ref" = some (Json.str r) := getTruthy_some href
              have hrR : r ∈ R := hrefs r (refsIn_ref hjr)
              have hrnv : r ∉ visited := fun hm => hvis (contains_of_mem_str hm)
              apply ih f (Nat.lt_succ_self f) (resolveRef1 doc r) (r :: visited)
              · intro x hx
                exact hdocR x (refsIn_resolveRef1 doc r x hx)
              · exact measure_step _ _ _ _ _ _ (cardDrop R visited r hrR hrnv)
                  (jsize_resolveRef1 doc r) (jsize_pos schema) hmu
        | none =>
          cases hall : getTruthy schema "allOf" with
          | some v =>
            cases v with
            | null => simp
            | undef => simp
            | bool b => simp
            | num n => simp
            | str s => simp
            | obj o => simp
            | arr branches =>
              simp only []
              have harr : jsize (Json.arr branches) < jsize schema :=
                jsize_jsGet (getTruthy_some hall)
              have hcol : collectOks (branches.map (fun s => resolve1 doc f s visited)) ≠
                  .error .out := by
                intro hcon
                obtain ⟨x, hxmem, hxout⟩ := List.mem_map.mp (collectOks_out_mem _ hcon)
                refine absurd hxout (ih f (Nat.lt_succ_self f) x visited ?_ ?_)
                · intro y hy
                  exact hrefs y (refsIn_jsGet (getTruthy_some hall) y (refsIn_arrElem hxmem y hy))
                · have hx1 : jsize x ≤ jsizeL branches := jsizeL_mem hxmem
                  have hx2 : jsize (Json.arr branches) = 1 + jsizeL branches := rfl
                  exact measure_sub _ _ _ _ _ (by omega) hmu
              cases hc : collectOks (branches.map (fun s => resolve1 doc f s visited)) with
              | error b =>
                cases b with
                | out => exact absurd hc hcol
                | err m => simp
              | ok vs =>
                simp only []
                cases hm : mergeSchemas vs with
                | ok m => simp
                | error e => simp
          | none =>
            cases hone : (getTruthy schema "oneOf").orElse (fun _ => getTruthy schema "anyOf") with
            | some v =>
              cases v with
              | null => simp
              | undef => simp
              | bool b => simp
              | num n => simp
              | str s => simp
              | obj o => simp
              | arr xs =>
                simp only []
                have hv : jsize (Json.arr xs) < jsize schema := by
                  rcases optOrElse_eq_some hone with h1 | ⟨h1, h2⟩
                  · exact jsize_jsGet (getTruthy_some h1)
                  · exact jsize_jsGet (getTruthy_some h2)
                have hrefsArr : ∀ y ∈ refsIn (Json.arr xs), y ∈ refsIn schema := by
                  rcases optOrElse_eq_some hone with h1 | ⟨h1, h2⟩
                  · exact refsIn_jsGet (getTruthy_some h1)
                  · exact refsIn_jsGet (getTruthy_some h2)
                apply ih f (Nat.lt_succ_self f) (xs.headD Json.undef) visited
                · intro y hy
                  exact hrefs y (hrefsArr y (refsIn_headD y hy))
                · have h1 := @jsize_headD xs
                  exact measure_sub _ _ _ _ _ (by omega) hmu
            | none =>
              cases schema with
              | null => simp
              | undef => simp
              | bool b => simp
              | num n => simp
              | str s => simp
              | arr a => simp
              | obj fields =>
                simp only []
                cases hp : getTruthy (Json.obj fields) "properties" with
                | some v =>
                  cases v with
                  | null => simp
                  | undef => simp
                  | bool b => simp
                  | num n => simp
                  | str s => simp
                  | arr a => simp
                  | obj pf =>
                    simp only []
                    have hpf : jsize (Json.obj pf) < jsize (Json.obj fields) :=
                      jsize_jsGet (getTruthy_some hp)
                    have hcf : collectFieldOks
                        (pf.map (fun kv => (kv.1, resolve1 doc f kv.2 visited))) ≠
                        .error .out := by
                      intro hcon
                      obtain ⟨kv', hmem', hout'⟩ := collectFieldOks_out_mem _ hcon
                      obtain ⟨kv0, hkv0, hkv0eq⟩ := List.mem_map.mp hmem'
                      have hout0 : resolve1 doc f kv0.2 visited = .error .out := by
                        rw [← hkv0eq] at hout'
                        exact hout'
                      refine absurd hout0 (ih f (Nat.lt_succ_self f) kv0.2 visited ?_ ?_)
                      · intro y hy
                        apply hrefs y
                        apply refsIn_jsGet (getTruthy_some hp)
                        show y ∈ refsIn (Json.obj pf)
                        simpa [refsIn] using refsInF_mem hkv0 y hy
                      · have h1 : 1 + jsize kv0.2 ≤ jsizeF pf := jsizeF_mem hkv0
                        have h2 : jsize (Json.obj pf) = 1 + jsizeF pf := rfl
                        exact measure_sub _ _ _ _ _ (by omega) hmu
                    cases hcc : collectFieldOks
                        (pf.map (fun kv => (kv.1, resolve1 doc f kv.2 visited))) with
                    | error b =>
                      cases b with
                      | out => exact absurd hcc hcf
                      | err m => simp
                    | ok newPf =>
                      simp only []
                      cases hit : getTruthy
                          (Json.obj (setKey fields "properties" (Json.obj newPf))) "items" with
                      | some it =>
                        simp only []
                        have hit0 : jsGet (Json.obj fields) "items" = some it := by
                          have hlk := getTruthy_some hit
                          simp only [jsGet] at hlk ⊢
                          rw [lookup_setKey] at hlk
                          simpa using hlk
                        have hitne : resolve1 doc f it visited ≠ .error .out := by
                          apply ih f (Nat.lt_succ_self f) it visited
                          · intro y hy
                            exact hrefs y (refsIn_jsGet hit0 y hy)
                          · exact measure_sub _ _ _ _ _ (jsize_jsGet hit0) hmu
                        cases hres : resolve1 doc f it visited with
                        | ok rr => simp
                        | error b =>
                          cases b with
                          | out => exact absurd hres hitne
                          | err m => simp
                      | none => simp
                | none =>
                  cases hit : getTruthy (Json.obj fields) "items" with
                  | some it =>
                    simp only []
                    have hit0 : jsGet (Json.obj fields) "items" = some it := getTruthy_some hit
                    have hitne : resolve1 doc f it visited ≠ .error .out := by
                      apply ih f (Nat.lt_succ_self f) it visited
                      · intro y hy
                        exact hrefs y (refsIn_jsGet hit0 y hy)
                      · exact measure_sub _ _ _ _ _ (jsize_jsGet hit0) hmu
                    cases hres : resolve1 doc f it visited with
                    | ok rr => simp
                    | error b =>
                      cases b with
                      | out => exact absurd hres hitne
                      | err m => simp
                  | none => simp

/-- Self-referential schema fragment: `{$ref: "#/definitions/A"}`. -/
def exCycFrag : Json := Json.obj [("$ref", Json.str "#/definitions/A")]

/-- Definition `A` whose property `self` refers back to `A`. -/
def exCycA : Json :=
  Json.obj [("type", Json.str "object"),
    ("properties", Json.obj [("self", exCycFrag)])]

/-- A Swagger 2.0 document containing the cyclic definition `A`. -/
def exCycDoc : Json :=
  Json.obj [("swagger", Json.str "2.0"),
    ("definitions", Json.obj [("A", exCycA)]),
    ("paths", Json.obj [("/x", Json.obj [("get", Json.obj [("operationId", Json.str "g")])])])]

/-- Termination of the second parser variant's resolver on a fragment: some
fuel completes the run (equivalently, the source recursion reaches a result
or a thrown error rather than recursing forever). -/
def resolve2Terminates (isV3 : Bool) (doc frag : Json) : Prop :=
  ∃ fuel, resolve2 isV3 doc fuel frag ≠ .error .out

theorem cyc_div : ∀ f : Nat,
    resolve2 false exCycDoc f exCycFrag = .error .out ∧
    resolve2 false exCycDoc f exCycA = .error .out := by
  intro f
  induction f with
  | zero => exact ⟨rfl, rfl⟩
  | succ n ih =>
    refine ⟨?_, ?_⟩
    · calc resolve2 false exCycDoc (n + 1) exCycFrag
          = resolve2 false exCycDoc n exCycA := rfl
      _ = .error .out := ih.2
    · have hstep : resolve2 false exCycDoc (n + 1) exCycA =
          (match collectFieldOks [("self", resolve2 false exCycDoc n exCycFrag)] with
           | .error b => (Except.error b : Except RBad Json)
           | .ok newPf => .ok (Json.obj (setKey
               [("type", Json.str "object"), ("properties", Json.obj [("self", exCycFrag)])]
               "properties" (Json.obj newPf)))) := rfl
      rw [hstep, ih.1]
      rfl

/-- C2 (amended to the first parser variant): for every document and schema
fragment, including self- and mutually-referential ones, the first variant's
`resolveSchema` terminates — some finite fuel completes the run — and
whenever a `$ref` already in the set of references on the active resolution
path is encountered, the resolver returns the `{type: object}` placeholder
annotated with the offending reference instead of recursing further.  The
second parser variant, also cited by the claim, has no such check and
diverges on a self-referential fragment (see the counterexample). -/
theorem C2_resolve1_cycle_detection (doc frag : Json) :
    (∃ fuel, resolve1 doc fuel frag [] ≠ .error .out) ∧
    (∀ (fuel : Nat) (visited : List String) (schema : Json) (r : String),
      getTruthy schema "$ref" = some (Json.str r) →
      visited.contains r = true →
      resolve1 doc (fuel + 1) schema visited =
        .ok (Json.obj [("type", Json.str "object"),
          ("description", Json.str ("Circular reference to " ++ r))])) := by
  constructor
  · refine ⟨((refsIn doc ++ refsIn frag).toFinset \
        (([] : List String)).toFinset).card * (jsize doc + 9) + jsize frag + 1, ?_⟩
    apply resolve1_sufficient doc ((refsIn doc ++ refsIn frag).toFinset)
    · intro x hx
      exact List.mem_toFinset.mpr (List.mem_append_left _ hx)
    · intro x hx
      exact List.mem_toFinset.mpr (List.mem_append_right _ hx)
    · omega
  · intro fuel visited schema r href hvis
    have hjr : jsGet schema "$ref" = some (Json.str r) := getTruthy_some href
    have hts : jsTruthy schema = true := by
      cases schema <;> simp [jsGet] at hjr <;> rfl
    rw [resolve1_succ]
    unfold resolve1Body
    rw [if_neg (by simp [hts])]
    rw [href]
    simp only []
    rw [if_pos hvis]

/-- Witness for C2 at the cyclic document: the first variant terminates,
producing the annotated placeholder on the cyclic branch. -/
theorem C2_resolve1_cycle_witness :
    resolve1 exCycDoc 50 exCycFrag [] =
      .ok (Json.obj [("type", Json.str "object"),
        ("properties", Json.obj [("self", Json.obj [("type", Json.str "object"),
          ("description", Json.str "Circular reference to #/definitions/A")])])]) ∧
    (∃ fuel, resolve1 exCycDoc fuel exCycFrag [] ≠ .error .out) :=
  ⟨by decide, (C2_resolve1_cycle_detection exCycDoc exCycFrag).1⟩

/-- Counterexample for C2 as stated: the second parser variant's
`resolveSchema` has no visited set, and on the self-referential fragment
`A.self → A` it never completes — every fuel is exhausted, i.e. the source
recursion is unbounded — instead of returning the placeholder. -/
theorem C2_resolve2_diverges_counterexample :
    (¬ resolve2Terminates false exCycDoc exCycFrag) ∧
    resolve2 false exCycDoc 1000 exCycFrag = .error .out := by
  constructor
  · rintro ⟨fuel, hne⟩
    exact hne (cyc_div fuel).1
  · exact (cyc_div 1000).1

/-! ## Request dispatcher (`handleOpenAPITool`, C1 and C7) -/

/-- `pat` occurs as a contiguous substring of `s`. -/
def occursIn (pat s : List Char) : Prop := ∃ a b, s = a ++ pat ++ b

/-- One pass of the global regex scan `path.match(/{([^}]+)}/g)` as a state
machine: outside a brace (`none`) a `{` opens collection; inside (`some acc`)
any non-`}` character (including `{`, which `[^}]` accepts) extends the name,
and a `}` emits the full match `{name}` when the name is non-empty (an empty
`{}` fails the `[^}]+` and the engine moves on). -/
def scanSM : List Char → Option (List Char) → List (List Char)
  | [], _ => []
  | c :: rest, none => if c = '{' then scanSM rest (some []) else scanSM rest none
  | c :: rest, some acc =>
    if c = '}' then
      if acc = [] then scanSM rest none
      else ('{' :: (acc ++ ['}'])) :: scanSM rest none
    else scanSM rest (some (acc ++ [c]))

/-- The list of full placeholder matches `{name}` of a path template. -/
def scanPH (s : List Char) : List (List Char) := scanSM s none

def isPrefixList : List Char → List Char → Bool
  | [], _ => true
  | _ :: _, [] => false
  | c :: cs, d :: ds => c = d && isPrefixList cs ds

/-- Split a string at the first occurrence of `m`, as `String.prototype
.replace` locates it. -/
def splitFirst (m : List Char) : List Char → Option (List Char × List Char)
  | [] => if isPrefixList m [] then some ([], ([] : List Char).drop m.length) else none
  | c :: rest =>
    if isPrefixList m (c :: rest) then some ([], (c :: rest).drop m.length)
    else
      match splitFirst m rest with
      | some (a, b) => some (c :: a, b)
      | none => none

/-- `url.replace(match, value)`: replace the first occurrence (the `$`-pattern
expansion of `replace` is not modeled; no argument value in the claims uses
it). -/
def replaceFirst (s m v : List Char) : List Char :=
  match splitFirst m s with
  | some (a, b) => a ++ v ++ b
  | none => s

/-- `args[k] !== undefined`: the argument value when the key is present and
not `undefined`. -/
def argDefined (args : List (String × Json)) (k : String) : Option Json :=
  match args.lookup k with
  | some Json.undef => none
  | some v => some v
  | none => none

/-- One iteration of the dispatcher's path-parameter loop: when the
argument map defines the placeholder's name, substitute its (string-coerced)
value for the first occurrence of the match and record the name in
`pathParams`. -/
def substStep (args : List (String × Json)) (st : List Char × List String)
    (mtch : List Char) : List Char × List String :=
  let name := String.mk ((mtch.drop 1).dropLast)
  match argDefined args name with
  | some v => (replaceFirst st.1 mtch (jsToString v).data, st.2 ++ [name])
  | none => st

/-- The dispatcher's URL construction: scan the template for placeholders and
substitute every one the argument map defines. -/
def substPath (pathT : String) (args : List (String × Json)) : List Char × List String :=
  (scanPH pathT.data).foldl (substStep args) (pathT.data, [])

/-- Query-parameter selection: every argument whose key is not the reserved
`body`, not a substituted path parameter and not `_`-prefixed. -/
def queryParams (args : List (String × Json)) (pathParams : List String) :
    List (String × Json) :=
  args.filter (fun kv =>
    (!(kv.1 == "body")) && (!(pathParams.contains kv.1)) && (!(isPrefixList "_".data kv.1.data)))

/-- The one HTTP request a dispatch produces: method, URL, the optional query
map (`undefined` when empty) and the payload passed to the client (only the
body-carrying verbs forward `bodyData`). -/
structure HttpRequest where
  method : String
  url : String
  params : Option (List (String × Json))
  payload : Option Json
deriving DecidableEq, Repr

/-- ASCII lower-casing of one character, the fragment of
`String.prototype.toLowerCase` exercised by HTTP method names and path
segments (all ASCII in this API). -/
def chLower (c : Char) : Char :=
  if 'A' ≤ c ∧ c ≤ 'Z' then Char.ofNat (c.toNat + 32) else c

/-- `s.toLowerCase()` on ASCII input. -/
def jsToLower (s : String) : String := String.mk (s.data.map chLower)

/-- `handleOpenAPITool`: look the tool up in the operation index (passed as
the `getInfo` capability the schema parser provides), substitute path
parameters, split the remaining arguments into query parameters and body,
and dispatch on the lower-cased method. -/
def handleOpenAPITool (getInfo : String → Option (String × String × Json))
    (opId : String) (args : List (String × Json)) : Except String HttpRequest :=
  match getInfo opId with
  | none => .error ("Unknown operation: " ++ opId)
  | some (method, pathT, _) =>
    let bodyData := args.lookup "body"
    let res := substPath pathT args
    let url := String.mk res.1
    let qp := queryParams args res.2
    let params := if qp.length > 0 then some qp else none
    match jsToLower method with
    | "get" => .ok ⟨method, url, params, none⟩
    | "post" => .ok ⟨method, url, params, bodyData⟩
    | "put" => .ok ⟨method, url, params, bodyData⟩
    | "patch" => .ok ⟨method, url, params, bodyData⟩
    | "delete" => .ok ⟨method, url, params, none⟩
    | _ => .error ("Unsupported HTTP method: " ++ method)

/-- The dispatch result for any supported method, as one equation: the URL is
the substituted template, the query map is the filtered argument list when
non-empty, and the payload is the `body` argument except for the body-less
verbs `get` and `delete`. -/
theorem handle_ok (getInfo : String → Option (String × String × Json))
    (opId method pathT : String) (opJ : Json) (args : List (String × Json))
    (hinfo : getInfo opId = some (method, pathT, opJ))
    (hm : jsToLower method ∈ (["get", "post", "put", "patch", "delete"] : List String)) :
    handleOpenAPITool getInfo opId args =
      .ok ⟨method, String.mk (substPath pathT args).1,
        (if (queryParams args (substPath pathT args).2).length > 0
         then some (queryParams args (substPath pathT args).2) else none),
        (if jsToLower method = "get" ∨ jsToLower method = "delete" then none
         else args.lookup "body")⟩ := by
  unfold handleOpenAPITool
  rw [hinfo]
  simp only [List.mem_cons, List.not_mem_nil, or_false] at hm
  rcases hm with h | h | h | h | h <;> rw [h] <;> simp [h]

def exArgsC1 : List (String × Json) := [("id", Json.str "42"), ("verbose", Json.str "true")]

/-- C1: dispatching a GET operation with path template `/x/{id}` on the
argument map `{id: "42", verbose: "true"}` issues a GET request on `/x/42`
with query exactly `{verbose: "true"}` and no placeholder left; the `body`
key is absent so no payload is sent (and GET sends none regardless); and in
general every query entry of a successful dispatch of this operation has a
key that is not `body`, not `_`-prefixed, and not a substituted path
parameter. -/
theorem C1_dispatch_roundtrip (getInfo : String → Option (String × String × Json))
    (opId : String) (opJ : Json)
    (hinfo : getInfo opId = some ("get", "/x/{id}", opJ)) :
    (handleOpenAPITool getInfo opId exArgsC1 =
      .ok ⟨"get", "/x/42", some [("verbose", Json.str "true")], none⟩) ∧
    ('{' ∉ ("/x/42" : String).data) ∧
    (∀ v, exArgsC1.lookup "body" = some v → (none : Option Json) = some v) ∧
    (∀ (args : List (String × Json)) (req : HttpRequest),
      handleOpenAPITool getInfo opId args = .ok req →
      ∀ kv ∈ req.params.getD [], kv.1 ≠ "body" ∧
        isPrefixList "_".data kv.1.data = false ∧
        kv.1 ∉ (substPath "/x/{id}" args).2) := by
  refine ⟨?_, by decide, ?_, ?_⟩
  · rw [handle_ok getInfo opId "get" "/x/{id}" opJ exArgsC1 hinfo (by decide)]
    decide
  · intro v hv
    rw [show exArgsC1.lookup "body" = (none : Option Json) by decide] at hv
    exact Option.noConfusion hv
  · intro args req hreq
    rw [handle_ok getInfo opId "get" "/x/{id}" opJ args hinfo (by decide)] at hreq
    injection hreq with h
    subst h
    intro kv hkv
    dsimp only at hkv
    by_cases hq : (queryParams args (substPath "/x/{id}" args).2).length > 0
    · rw [if_pos hq] at hkv
      simp only [Option.getD_some] at hkv
      unfold queryParams at hkv
      obtain ⟨hmem, hpred⟩ := List.mem_filter.mp hkv
      simp only [Bool.and_eq_true, Bool.not_eq_true'] at hpred
      obtain ⟨⟨hbody, hcontains⟩, hpre⟩ := hpred
      refine ⟨?_, hpre, ?_⟩
      · intro hh
        rw [hh] at hbody
        simp at hbody
      · intro hin
        rw [contains_of_mem_str hin] at hcontains
        exact Bool.noConfusion hcontains
    · rw [if_neg hq] at hkv
      simp only [Option.getD_none] at hkv
      exact (List.not_mem_nil kv hkv).elim

def exGetInfoC1 : String → Option (String × String × Json) :=
  fun s => if s = "opX" then some ("get", "/x/{id}", Json.null) else none

theorem C1_dispatch_witness :
    exGetInfoC1 "opX" = some ("get", "/x/{id}", Json.null) ∧
    handleOpenAPITool exGetInfoC1 "opX" exArgsC1 =
      .ok ⟨"get", "/x/42", some [("verbose", Json.str "true")], none⟩ :=
  ⟨by decide, (C1_dispatch_roundtrip exGetInfoC1 "opX" Json.null (by decide)).1⟩

/-! ### C7: an unsubstituted placeholder survives dispatch verbatim -/

theorem occursIn_append_left (pre m s : List Char) (h : occursIn m s) :
    occursIn m (pre ++ s) := by
  obtain ⟨a, b, rfl⟩ := h
  exact ⟨pre ++ a, b, by simp⟩

/-- Every match the scan emits is a full `{name}` with a non-empty,
`}`-free name. -/
theorem scanSM_shape : ∀ (s : List Char) (st : Option (List Char)),
    (∀ acc, st = some acc → '}' ∉ acc) →
    ∀ m ∈ scanSM s st, ∃ q, m = '{' :: (q ++ ['}']) ∧ q ≠ [] ∧ '}' ∉ q := by
  intro s
  induction s with
  | nil => intro st _ m hm; simp [scanSM] at hm
  | cons c rest ih =>
    intro st hst m hm
    cases st with
    | none =>
      simp only [scanSM] at hm
      by_cases hc : c = '{'
      · rw [if_pos hc] at hm
        exact ih (some []) (fun acc ha => by cases ha; simp) m hm
      · rw [if_neg hc] at hm
        exact ih none (fun acc ha => by cases ha) m hm
    | some acc =>
      have hacc : '}' ∉ acc := hst acc rfl
      simp only [scanSM] at hm
      by_cases hc : c = '}'
      · rw [if_pos hc] at hm
        by_cases ha : acc = []
        · rw [if_pos ha] at hm
          exact ih none (fun acc' ha' => by cases ha') m hm
        · rw [if_neg ha] at hm
          rcases List.mem_cons.mp hm with rfl | hm'
          · exact ⟨acc, rfl, ha, hacc⟩
          · exact ih none (fun acc' ha' => by cases ha') m hm'
      · rw [if_neg hc] at hm
        apply ih (some (acc ++ [c])) _ m hm
        intro acc' ha' hmem
        cases ha'
        rcases List.mem_append.mp hmem with h1 | h1
        · exact hacc h1
        · simp only [List.mem_singleton] at h1
          exact hc h1.symm

/-- Every match the scan emits occurs verbatim in the scanned text (prefixed
by the currently open brace content, if any). -/
theorem scanSM_occurs : ∀ (s : List Char) (st : Option (List Char)) (m : List Char),
    m ∈ scanSM s st →
    occursIn m ((match st with | none => ([] : List Char) | some a => '{' :: a) ++ s) := by
  intro s
  induction s with
  | nil => intro st m hm; simp [scanSM] at hm
  | cons c rest ih =>
    intro st m hm
    cases st with
    | none =>
      simp only [scanSM] at hm
      by_cases hc : c = '{'
      · rw [if_pos hc] at hm
        have h1 := ih (some []) m hm
        subst hc
        simpa using h1
      · rw [if_neg hc] at hm
        have h1 := ih none m hm
        have h2 := occursIn_append_left [c] m rest (by simpa using h1)
        simpa using h2
    | some acc =>
      simp only [scanSM] at hm
      by_cases hc : c = '}'
      · rw [if_pos hc] at hm
        subst hc
        by_cases ha : acc = []
        · rw [if_pos ha] at hm
          subst ha
          have h1 := ih none m hm
          have h2 := occursIn_append_left ['{', '}'] m rest (by simpa using h1)
          simpa using h2
        · rw [if_neg ha] at hm
          rcases List.mem_cons.mp hm with rfl | hm'
          · exact ⟨[], rest, by simp⟩
          · have h1 := ih none m hm'
            have h2 := occursIn_append_left ('{' :: (acc ++ ['}'])) m rest (by simpa using h1)
            simpa [List.append_assoc] using h2
      · rw [if_neg hc] at hm
        have h1 := ih (some (acc ++ [c])) m hm
        simpa [List.append_assoc] using h1

theorem scanPH_occurs (s m : List Char) (h : m ∈ scanPH s) : occursIn m s := by
  have h1 := scanSM_occurs s none m h
  simpa using h1

theorem scanPH_shape (s m : List Char) (h : m ∈ scanPH s) :
    ∃ q, m = '{' :: (q ++ ['}']) ∧ q ≠ [] ∧ '}' ∉ q :=
  scanSM_shape s none (fun acc ha => Option.noConfusion ha) m h

theorem isPrefixList_eq : ∀ (m s : List Char), isPrefixList m s = true →
    s = m ++ s.drop m.length := by
  intro m
  induction m with
  | nil => intro s _; simp
  | cons c cs ih =>
    intro s h
    cases s with
    | nil => simp [isPrefixList] at h
    | cons d ds =>
      simp only [isPrefixList, Bool.and_eq_true, decide_eq_true_eq] at h
      obtain ⟨rfl, h2⟩ := h
      have h3 := ih ds h2
      simp only [List.cons_append, List.length_cons, List.drop_succ_cons]
      rw [← h3]

theorem splitFirst_eq : ∀ (s m a b : List Char), splitFirst m s = some (a, b) →
    s = a ++ m ++ b := by
  intro s
  induction s with
  | nil =>
    intro m a b h
    simp only [splitFirst] at h
    by_cases hp : isPrefixList m [] = true
    · rw [if_pos hp] at h
      cases m with
      | nil =>
        injection h with h2
        injection h2 with h3 h4
        subst h3; subst h4
        rfl
      | cons _ _ => simp [isPrefixList] at hp
    · rw [if_neg hp] at h
      exact Option.noConfusion h
  | cons c rest ih =>
    intro m a b h
    simp only [splitFirst] at h
    by_cases hp : isPrefixList m (c :: rest) = true
    · rw [if_pos hp] at h
      injection h with h2
      injection h2 with h3 h4
      subst h3; subst h4
      simpa using isPrefixList_eq m (c :: rest) hp
    · rw [if_neg hp] at h
      cases hsp : splitFirst m rest with
      | none => rw [hsp] at h; exact Option.noConfusion h
      | some ab =>
        obtain ⟨a', b'⟩ := ab
        rw [hsp] at h
        injection h with h2
        injection h2 with h3 h4
        subst h3; subst h4
        have h5 := ih m a' b' hsp
        rw [List.cons_append, List.cons_append, ← h5]

/-- Two `}`-free names followed by their closing braces, aligned at the same
start, are the same name. -/
theorem phPrefixEq {q p w : List Char} (hq : '}' ∉ q) (hp : '}' ∉ p)
    (he : q ++ ['}'] = p ++ ('}' :: w)) : q = p ∧ w = [] := by
  rcases List.append_eq_append_iff.mp he with ⟨u, hu1, hu2⟩ | ⟨u, hu1, hu2⟩
  · -- hu1 : p = q ++ u, hu2 : ['}'] = u ++ ('}' :: w)
    cases u with
    | nil =>
      simp only [List.nil_append, List.cons.injEq, true_and] at hu2
      exact ⟨by rw [hu1, List.append_nil], hu2.symm⟩
    | cons z u₀ =>
      exfalso
      rw [List.cons_append] at hu2
      injection hu2 with h1 h2
      exact absurd h2.symm (by simp)
  · -- hu1 : q = p ++ u, hu2 : '}' :: w = u ++ ['}']
    cases u with
    | nil =>
      simp only [List.nil_append, List.cons.injEq] at hu2
      exact ⟨by rw [hu1, List.append_nil], hu2.2⟩
    | cons z u₀ =>
      exfalso
      rw [List.cons_append] at hu2
      injection hu2 with h1 h2
      apply hq
      rw [hu1, ← h1]
      simp

/-- Two placeholder occurrences starting at the same position are the same
placeholder. -/
theorem phEq {m pat : List Char} (q p : List Char)
    (hmq : m = '{' :: (q ++ ['}'])) (hq : '}' ∉ q)
    (hpp : pat = '{' :: (p ++ ['}'])) (hp : '}' ∉ p)
    (b y : List Char) (he : m ++ b = pat ++ y) : m = pat := by
  subst hmq; subst hpp
  rw [List.cons_append, List.cons_append] at he
  injection he with hhead he2
  rcases List.append_eq_append_iff.mp he2 with ⟨u, hu1, hu2⟩ | ⟨u, hu1, hu2⟩
  · -- hu1 : p ++ ['}'] = (q ++ ['}']) ++ u
    rw [List.append_assoc, List.singleton_append] at hu1
    have h3 := phPrefixEq hp hq hu1
    rw [h3.1]
  · -- hu1 : q ++ ['}'] = (p ++ ['}']) ++ u
    rw [List.append_assoc, List.singleton_append] at hu1
    have h3 := phPrefixEq hq hp hu1
    rw [h3.1]

/-- If a placeholder `pat` occurs in `a ++ m ++ b` and a different
placeholder `m` sits in the middle, `pat` lies entirely inside `a` or
entirely inside `b`: distinct `{name}` occurrences cannot overlap, because a
name contains no brace. -/
theorem placeholder_disjoint {a m b x pat y : List Char} (q p : List Char)
    (hmq : m = '{' :: (q ++ ['}'])) (hq1 : '{' ∉ q) (hq2 : '}' ∉ q)
    (hpp : pat = '{' :: (p ++ ['}'])) (hp1 : '{' ∉ p) (hp2 : '}' ∉ p)
    (hne : m ≠ pat)
    (he : a ++ (m ++ b) = x ++ (pat ++ y)) :
    (∃ a1 a2, a = a1 ++ pat ++ a2) ∨ (∃ b1 b2, b = b1 ++ pat ++ b2) := by
  rcases List.append_eq_append_iff.mp he with ⟨z, hz1, hz2⟩ | ⟨z, hz1, hz2⟩
  · -- x = a ++ z, m ++ b = z ++ (pat ++ y)
    cases z with
    | nil =>
      simp only [List.nil_append] at hz2
      exact absurd (phEq q p hmq hq2 hpp hp2 b y hz2) hne
    | cons c z₀ =>
      subst hmq
      rw [List.cons_append, List.cons_append] at hz2
      injection hz2 with hc htail
      rw [List.append_assoc] at htail
      rcases List.append_eq_append_iff.mp htail with ⟨u, hu1, hu2⟩ | ⟨u, hu1, hu2⟩
      · -- z₀ = q ++ u, ['}'] ++ b = u ++ (pat ++ y)
        cases u with
        | nil =>
          simp only [List.nil_append] at hu2
          subst hpp
          rw [List.singleton_append, List.cons_append] at hu2
          injection hu2 with hc2 _
          exact absurd hc2 (by decide)
        | cons d u₀ =>
          rw [List.singleton_append, List.cons_append] at hu2
          injection hu2 with hd htl
          exact Or.inr ⟨u₀, y, by rw [htl, List.append_assoc]⟩
      · -- q = z₀ ++ u, pat ++ y = u ++ (['}'] ++ b)
        cases u with
        | nil =>
          simp only [List.nil_append] at hu2
          subst hpp
          rw [List.singleton_append, List.cons_append] at hu2
          injection hu2 with hc2 _
          exact absurd hc2 (by decide)
        | cons d u₀ =>
          subst hpp
          rw [List.cons_append, List.cons_append] at hu2
          injection hu2 with hd _
          refine absurd ?_ hq1
          rw [hu1, ← hd]
          simp
  · -- a = x ++ z, pat ++ y = z ++ (m ++ b)
    cases z with
    | nil =>
      simp only [List.nil_append] at hz2
      exact absurd (phEq p q hpp hp2 hmq hq2 y b hz2).symm hne
    | cons c z₀ =>
      subst hpp
      rw [List.cons_append, List.cons_append] at hz2
      injection hz2 with hc htail
      rw [List.append_assoc] at htail
      rcases List.append_eq_append_iff.mp htail with ⟨u, hu1, hu2⟩ | ⟨u, hu1, hu2⟩
      · -- z₀ = p ++ u, ['}'] ++ y = u ++ (m ++ b)
        cases u with
        | nil =>
          simp only [List.nil_append] at hu2
          subst hmq
          rw [List.singleton_append, List.cons_append] at hu2
          injection hu2 with hc2 _
          exact absurd hc2 (by decide)
        | cons d u₀ =>
          simp only [List.singleton_append, List.cons_append] at hu2
          injection hu2 with hd _
          refine Or.inl ⟨x, u₀, ?_⟩
          rw [hz1, hu1, ← hc, ← hd]
          simp
      · -- p = z₀ ++ u, m ++ b = u ++ (['}'] ++ y)
        cases u with
        | nil =>
          simp only [List.nil_append] at hu2
          subst hmq
          rw [List.singleton_append, List.cons_append] at hu2
          injection hu2 with hc2 _
          exact absurd hc2 (by decide)
        | cons d u₀ =>
          subst hmq
          rw [List.cons_append, List.cons_append] at hu2
          injection hu2 with hd _
          refine absurd ?_ hp1
          rw [hu1, ← hd]
          simp

/-- Replacing the first occurrence of a different placeholder cannot destroy
an occurrence of `pat`. -/
theorem step_preserve (url m v pat : List Char) (q p : List Char)
    (hmq : m = '{' :: (q ++ ['}'])) (hq1 : '{' ∉ q) (hq2 : '}' ∉ q)
    (hpp : pat = '{' :: (p ++ ['}'])) (hp1 : '{' ∉ p) (hp2 : '}' ∉ p)
    (hne : m ≠ pat)
    (hocc : occursIn pat url) :
    occursIn pat (replaceFirst url m v) := by
  unfold replaceFirst
  cases hsp : splitFirst m url with
  | none => exact hocc
  | some ab =>
    obtain ⟨a, b⟩ := ab
    obtain ⟨x, y, hxy⟩ := hocc
    have hurl := splitFirst_eq url m a b hsp
    have he : a ++ (m ++ b) = x ++ (pat ++ y) := by
      rw [← List.append_assoc, ← hurl, hxy, List.append_assoc]
    rcases placeholder_disjoint q p hmq hq1 hq2 hpp hp1 hp2 hne he
      with ⟨a1, a2, ha⟩ | ⟨b1, b2, hb⟩
    · exact ⟨a1, a2 ++ v ++ b, by rw [ha]; simp [List.append_assoc]⟩
    · exact ⟨a ++ v ++ b1, b2, by rw [hb]; simp [List.append_assoc]⟩

theorem lookup_none_keys {β : Type} (l : List (String × β)) (k : String)
    (h : l.lookup k = none) : ∀ kv ∈ l, kv.1 ≠ k := by
  induction l with
  | nil => intro kv hkv; cases hkv
  | cons hd tl ih =>
    intro kv hkv
    obtain ⟨k1, v1⟩ := hd
    simp only [List.lookup] at h
    cases hbeq : (k == k1) with
    | true => rw [hbeq] at h; exact Option.noConfusion h
    | false =>
      rw [hbeq] at h
      rcases List.mem_cons.mp hkv with rfl | hkv'
      · intro hx
        have hx' : k1 = k := hx
        rw [hx'] at hbeq
        simp at hbeq
      · exact ih h kv hkv'

/-- The path-substitution fold leaves a placeholder intact when the argument
map does not define its name. -/
theorem foldSubst_preserves (args : List (String × Json)) (p : List Char)
    (hp1 : '{' ∉ p) (hp2 : '}' ∉ p)
    (hnone : argDefined args (String.mk p) = none) :
    ∀ (ms : List (List Char)) (url : List Char) (pp : List String),
    (∀ m ∈ ms, ∃ q, m = '{' :: (q ++ ['}']) ∧ '{' ∉ q ∧ '}' ∉ q) →
    occursIn ('{' :: (p ++ ['}'])) url →
    occursIn ('{' :: (p ++ ['}'])) (ms.foldl (substStep args) (url, pp)).1 := by
  intro ms
  induction ms with
  | nil => intro url pp _ hocc; exact hocc
  | cons mtch rest ih =>
    intro url pp hshape hocc
    simp only [List.foldl_cons]
    obtain ⟨q, hq, hq1, hq2⟩ := hshape mtch (List.mem_cons_self mtch rest)
    have hshape' : ∀ m ∈ rest, ∃ q, m = '{' :: (q ++ ['}']) ∧ '{' ∉ q ∧ '}' ∉ q :=
      fun m hm => hshape m (List.mem_cons_of_mem _ hm)
    cases hdef : argDefined args (String.mk ((mtch.drop 1).dropLast)) with
    | none =>
      have hstep : substStep args (url, pp) mtch = (url, pp) := by
        simp only [substStep]
        rw [hdef]
      rw [hstep]
      exact ih url pp hshape' hocc
    | some v =>
      have hstep : substStep args (url, pp) mtch =
          (replaceFirst url mtch (jsToString v).data,
           pp ++ [String.mk ((mtch.drop 1).dropLast)]) := by
        simp only [substStep]
        rw [hdef]
      rw [hstep]
      apply ih _ _ hshape'
      have hne : mtch ≠ '{' :: (p ++ ['}']) := by
        intro hx
        have hname : ((mtch.drop 1).dropLast) = p := by rw [hx]; simp
        rw [hname, hnone] at hdef
        exact Option.noConfusion hdef
      exact step_preserve url mtch (jsToString v).data _ q p hq hq1 hq2 rfl hp1 hp2 hne hocc

/-- C7: dispatching a known tool (any supported method) with an argument map
that lacks the key of some path placeholder `{p}` succeeds, the literal
placeholder text `{p}` still occurs in the constructed URL, and no query
entry carries the key `p`. Hypotheses: the template's placeholder names are
brace-free (true of every real route) and `{p}` is one of the scanned
placeholders. -/
theorem C7_missing_param_preserved (getInfo : String → Option (String × String × Json))
    (opId method pathT : String) (opJ : Json) (args : List (String × Json)) (p : List Char)
    (hinfo : getInfo opId = some (method, pathT, opJ))
    (hm : jsToLower method ∈ (["get", "post", "put", "patch", "delete"] : List String))
    (hwf : ∀ m ∈ scanPH pathT.data, '{' ∉ (m.drop 1).dropLast)
    (hph : ('{' :: (p ++ ['}'])) ∈ scanPH pathT.data)
    (hp1 : '{' ∉ p)
    (hmiss : args.lookup (String.mk p) = none) :
    ∃ req, handleOpenAPITool getInfo opId args = .ok req ∧
      occursIn ('{' :: (p ++ ['}'])) req.url.data ∧
      ∀ kv ∈ req.params.getD [], kv.1 ≠ String.mk p := by
  obtain ⟨q0, hq0, _, hq0b⟩ := scanPH_shape pathT.data _ hph
  have hqp : q0 = p := by
    injection hq0 with hhd h2
    have h3 : p = q0 := by simpa using h2
    exact h3.symm
  have hp2 : '}' ∉ p := by rw [← hqp]; exact hq0b
  have hnone : argDefined args (String.mk p) = none := by
    unfold argDefined
    rw [hmiss]
  have hocc0 : occursIn ('{' :: (p ++ ['}'])) pathT.data := scanPH_occurs _ _ hph
  have hshape : ∀ m ∈ scanPH pathT.data,
      ∃ q, m = '{' :: (q ++ ['}']) ∧ '{' ∉ q ∧ '}' ∉ q := by
    intro m hmem
    obtain ⟨q, hq, _, hqb⟩ := scanPH_shape pathT.data m hmem
    refine ⟨q, hq, ?_, hqb⟩
    have h4 := hwf m hmem
    rw [hq] at h4
    simpa using h4
  have hurl : occursIn ('{' :: (p ++ ['}'])) (substPath pathT args).1 := by
    unfold substPath
    exact foldSubst_preserves args p hp1 hp2 hnone (scanPH pathT.data) pathT.data [] hshape hocc0
  refine ⟨⟨method, String.mk (substPath pathT args).1,
    (if (queryParams args (substPath pathT args).2).length > 0
     then some (queryParams args (substPath pathT args).2) else none),
    (if jsToLower method = "get" ∨ jsToLower method = "delete" then none
     else args.lookup "body")⟩, handle_ok getInfo opId method pathT opJ args hinfo hm, hurl, ?_⟩
  intro kv hkv
  dsimp only at hkv
  by_cases hq : (queryParams args (substPath pathT args).2).length > 0
  · rw [if_pos hq] at hkv
    simp only [Option.getD_some] at hkv
    unfold queryParams at hkv
    exact lookup_none_keys args (String.mk p) hmiss kv (List.mem_filter.mp hkv).1
  · rw [if_neg hq] at hkv
    simp only [Option.getD_none] at hkv
    exact (List.not_mem_nil kv hkv).elim

theorem C7_missing_param_witness :
    (exGetInfoC1 "opX" = some ("get", "/x/{id}", Json.null)) ∧
    (∃ req, handleOpenAPITool exGetInfoC1 "opX" [("q", Json.str "1")] = .ok req ∧
      occursIn ('{' :: (("id" : String).data ++ ['}'])) req.url.data ∧
      ∀ kv ∈ req.params.getD [], kv.1 ≠ String.mk ("id" : String).data) :=
  ⟨by decide, C7_missing_param_preserved exGetInfoC1 "opX" "get" "/x/{id}" Json.null
      [("q", Json.str "1")] (("id" : String).data) (by decide) (by decide) (by decide)
      (by decide) (by decide) (by decide)⟩

/-! ### C10: parameters without a schema default to `{type: "string"}` -/

/-- The parameter loop of `buildInputSchemaV3`: for each parameter, resolve
`param.schema || {type: 'string'}`, store `{...schema, description:
param.description}` under `param.name`, and record the name when
`param.required` is truthy. -/
def buildParamsV3 (resolve : Json → Except RBad Json) :
    List Json → List (String × Json) × List Json →
      Except RBad (List (String × Json) × List Json)
  | [], st => .ok st
  | param :: rest, st =>
    match resolve (match getTruthy param "schema" with
                   | some s => s
                   | none => Json.obj [("type", Json.str "string")]) with
    | .error e => .error e
    | .ok schema =>
      buildParamsV3 resolve rest
        (setKey st.1 (jsToString (jsGetD param "name"))
          (Json.obj (setKey (fieldsOfSpread schema) "description" (jsGetD param "description"))),
         match getTruthy param "required" with
         | some _ => st.2 ++ [jsGetD param "name"]
         | none => st.2)

/-- `buildInputSchemaV3(operation, ...)`: parameter properties, then the
optional `requestBody.content['application/json'].schema` body property,
wrapped as `{type: 'object', properties, required: ... , additionalProperties:
false}` (`required` present with value `undefined` when empty). -/
def buildInputSchemaV3 (resolve : Json → Except RBad Json) (op : Json) :
    Except RBad Json :=
  match
    (match getTruthy op "parameters" with
     | some (Json.arr ps) => buildParamsV3 resolve ps ([], [])
     | some _ => .error (RBad.err "TypeError: operation.parameters is not iterable")
     | none => .ok ([], []))
  with
  | .error e => .error e
  | .ok (props, req) =>
    let bsch := jsGetD (jsGetD (jsGetD (jsGetD op "requestBody") "content")
      "application/json") "schema"
    match (if jsTruthy bsch then some bsch else none) with
    | some bs =>
      match resolve bs with
      | .error e => .error e
      | .ok bodySchema =>
        let props2 := setKey props "body"
          (Json.obj (setKey (fieldsOfSpread bodySchema) "description" (Json.str "Request body")))
        let req2 := match getTruthy (jsGetD op "requestBody") "required" with
                    | some _ => req ++ [Json.str "body"]
                    | none => req
        .ok (Json.obj [("type", Json.str "object"), ("properties", Json.obj props2),
          ("required", if req2.length > 0 then Json.arr req2 else Json.undef),
          ("additionalProperties", Json.bool false)])
    | none =>
      .ok (Json.obj [("type", Json.str "object"), ("properties", Json.obj props),
        ("required", if req.length > 0 then Json.arr req else Json.undef),
        ("additionalProperties", Json.bool false)])

/-- The parameter loop never disturbs a property whose key no remaining
parameter carries. -/
theorem buildParamsV3_preserve (resolve : Json → Except RBad Json) :
    ∀ (ps : List Json) (st : List (String × Json) × List Json)
      (props : List (String × Json)) (req : List Json) (k : String),
    buildParamsV3 resolve ps st = .ok (props, req) →
    (∀ p' ∈ ps, jsToString (jsGetD p' "name") ≠ k) →
    props.lookup k = st.1.lookup k := by
  intro ps
  induction ps with
  | nil =>
    intro st props req k h hk
    simp only [buildParamsV3] at h
    injection h with h2
    rw [h2]
  | cons param rest ih =>
    intro st props req k h hk
    simp only [buildParamsV3] at h
    cases hres : resolve (match getTruthy param "schema" with
                          | some s => s
                          | none => Json.obj [("type", Json.str "string")]) with
    | error e =>
      rw [hres] at h
      simp only [] at h
      exact Except.noConfusion h
    | ok schema =>
      rw [hres] at h
      simp only [] at h
      have h2 := ih _ _ _ k h (fun p' hp' => hk p' (List.mem_cons_of_mem _ hp'))
      rw [h2, lookup_setKey, if_neg (fun he => hk param (List.mem_cons_self param rest) he.symm)]

/-- A parameter whose `schema` is absent or falsy ends up with the resolved
default `{type: 'string'}` (plus the spread-in `description`) under its name,
provided no distinct parameter shares that name. -/
theorem buildParamsV3_lookup (resolve : Json → Except RBad Json)
    (hres : resolve (Json.obj [("type", Json.str "string")]) =
      .ok (Json.obj [("type", Json.str "string")])) :
    ∀ (ps : List Json) (st : List (String × Json) × List Json)
      (props : List (String × Json)) (req : List Json) (p : Json),
    buildParamsV3 resolve ps st = .ok (props, req) →
    p ∈ ps →
    getTruthy p "schema" = none →
    (∀ p' ∈ ps, p' ≠ p → jsToString (jsGetD p' "name") ≠ jsToString (jsGetD p "name")) →
    props.lookup (jsToString (jsGetD p "name")) =
      some (Json.obj [("type", Json.str "string"), ("description", jsGetD p "description")]) := by
  intro ps
  induction ps with
  | nil => intro st props req p h hmem; exact absurd hmem (List.not_mem_nil p)
  | cons param rest ih =>
    intro st props req p h hmem hnos huniq
    simp only [buildParamsV3] at h
    by_cases hpm : p ∈ rest
    · -- handled by the recursive call, whatever this step did
      cases hres1 : resolve (match getTruthy param "schema" with
                             | some s => s
                             | none => Json.obj [("type", Json.str "string")]) with
      | error e =>
        rw [hres1] at h
        simp only [] at h
        exact Except.noConfusion h
      | ok schema =>
        rw [hres1] at h
        simp only [] at h
        exact ih _ _ _ p h hpm hnos
          (fun p' hp' => huniq p' (List.mem_cons_of_mem _ hp'))
    · -- p is this step's parameter and occurs nowhere later
      have hpp : param = p := by
        rcases List.mem_cons.mp hmem with h1 | h1
        · exact h1.symm
        · exact absurd h1 hpm
      subst hpp
      rw [hnos] at h
      rw [hres] at h
      simp only [] at h
      have hkeep := buildParamsV3_preserve resolve rest _ props req
        (jsToString (jsGetD param "name")) h
        (fun p' hp' => huniq p' (List.mem_cons_of_mem _ hp')
          (fun he => hpm (he ▸ hp')))
      rw [hkeep, lookup_setKey, if_pos rfl]
      rfl

/-- C10: `resolveSchema` (second variant) on an absent fragment —
`null` or `undefined` — returns exactly `{type: "string"}`, and a declared
parameter carrying no truthy schema still gets a property in the compiled
input schema, typed `string` (with the parameter's `description` spread in).
Hypotheses: the operation's parameters form an array containing the
parameter, no distinct parameter shares its name, and the name is not the
reserved `body` key the request-body processing overwrites. -/
theorem C10_absent_schema_defaults_string (isV3 : Bool) (doc : Json) (fuel : Nat)
    (op sch : Json) (ps : List Json) (p : Json)
    (hps : getTruthy op "parameters" = some (Json.arr ps))
    (hmem : p ∈ ps)
    (hnos : getTruthy p "schema" = none)
    (huniq : ∀ p' ∈ ps, p' ≠ p → jsToString (jsGetD p' "name") ≠ jsToString (jsGetD p "name"))
    (hnb : jsToString (jsGetD p "name") ≠ "body")
    (hok : buildInputSchemaV3 (resolve2 isV3 doc (fuel + 1)) op = .ok sch) :
    (resolve2 isV3 doc (fuel + 1) Json.null = .ok (Json.obj [("type", Json.str "string")])) ∧
    (resolve2 isV3 doc (fuel + 1) Json.undef = .ok (Json.obj [("type", Json.str "string")])) ∧
    (∃ props, jsGet sch "properties" = some (Json.obj props) ∧
      props.lookup (jsToString (jsGetD p "name")) =
        some (Json.obj [("type", Json.str "string"), ("description", jsGetD p "description")])) := by
  refine ⟨rfl, rfl, ?_⟩
  have hres : resolve2 isV3 doc (fuel + 1) (Json.obj [("type", Json.str "string")]) =
      .ok (Json.obj [("type", Json.str "string")]) := rfl
  unfold buildInputSchemaV3 at hok
  rw [hps] at hok
  simp only [] at hok
  cases hbp : buildParamsV3 (resolve2 isV3 doc (fuel + 1)) ps ([], []) with
  | error e =>
    rw [hbp] at hok
    simp only [] at hok
    exact Except.noConfusion hok
  | ok pr =>
    obtain ⟨props, req⟩ := pr
    rw [hbp] at hok
    simp only [] at hok
    have hlook := buildParamsV3_lookup (resolve2 isV3 doc (fuel + 1)) hres ps ([], [])
      props req p hbp hmem hnos huniq
    cases hbody : (if jsTruthy (jsGetD (jsGetD (jsGetD (jsGetD op "requestBody") "content")
        "application/json") "schema")
      then some (jsGetD (jsGetD (jsGetD (jsGetD op "requestBody") "content")
        "application/json") "schema") else none) with
    | none =>
      rw [hbody] at hok
      simp only [] at hok
      injection hok with h2
      subst h2
      refine ⟨props, by simp [jsGet, List.lookup], hlook⟩
    | some bs =>
      rw [hbody] at hok
      simp only [] at hok
      cases hrb : resolve2 isV3 doc (fuel + 1) bs with
      | error e =>
        rw [hrb] at hok
        simp only [] at hok
        exact Except.noConfusion hok
      | ok bodySchema =>
        rw [hrb] at hok
        simp only [] at hok
        injection hok with h2
        subst h2
        refine ⟨setKey props "body"
          (Json.obj (setKey (fieldsOfSpread bodySchema) "description" (Json.str "Request body"))),
          by simp [jsGet, List.lookup], ?_⟩
        rw [lookup_setKey, if_neg hnb]
        exact hlook

def exPC10 : Json := Json.obj [("name", Json.str "verbose")]

def exOpC10 : Json := Json.obj [("parameters", Json.arr [exPC10])]

theorem C10_absent_schema_witness :
    (resolve2 true (Json.obj []) 6 Json.null = .ok (Json.obj [("type", Json.str "string")])) ∧
    (resolve2 true (Json.obj []) 6 Json.undef = .ok (Json.obj [("type", Json.str "string")])) ∧
    (∃ props,
      jsGet (Json.obj [("type", Json.str "object"),
        ("properties", Json.obj [("verbose",
          Json.obj [("type", Json.str "string"), ("description", Json.undef)])]),
        ("required", Json.undef), ("additionalProperties", Json.bool false)]) "properties" =
        some (Json.obj props) ∧
      props.lookup (jsToString (jsGetD exPC10 "name")) =
        some (Json.obj [("type", Json.str "string"), ("description", jsGetD exPC10 "description")])) :=
  C10_absent_schema_defaults_string true (Json.obj []) 5 exOpC10
    (Json.obj [("type", Json.str "object"),
      ("properties", Json.obj [("verbose",
        Json.obj [("type", Json.str "string"), ("description", Json.undef)])]),
      ("required", Json.undef), ("additionalProperties", Json.bool false)])
    [exPC10] exPC10 (by decide) (by decide) (by decide) (by decide) (by decide) (by decide)

/-! ### C4 and C6: tool generation, duplicate ids, name synthesis -/

/-- A compiled MCP tool. The `name` keeps the raw `operationId` value the
source stores (`name: operation.operationId!` is unchecked), so the
`processedOperations` set's membership test is modeled on the same value. -/
structure Tool where
  name : Json
  description : String
  inputSchema : Json
deriving DecidableEq, Repr

/-- `typeof v === 'object'` (true for objects, arrays and `null`). -/
def jsTypeofObject : Json → Bool
  | .obj _ => true
  | .arr _ => true
  | .null => true
  | _ => false

/-- Both variants' `isHttpMethod`. -/
def isHttpMethod (m : String) : Bool :=
  (["get", "post", "put", "patch", "delete", "head", "options"] : List String).contains
    (jsToLower m)

/-- First parser variant `isOperation`: a truthy object carrying an
`operationId` key. -/
def isOperation1 (o : Json) : Bool :=
  jsTruthy o && jsTypeofObject o && jsHasKey o "operationId"

/-- Second parser variant `isOperation`: a truthy object carrying any of the
five operation-ish keys. -/
def isOperation2 (o : Json) : Bool :=
  jsTruthy o && jsTypeofObject o &&
    (jsHasKey o "operationId" || jsHasKey o "summary" || jsHasKey o "description" ||
     jsHasKey o "parameters" || jsHasKey o "responses")

/-- ASCII upper-casing of one character (the fragment of `toUpperCase` these
ASCII method names and paths exercise). -/
def chUpper (c : Char) : Char :=
  if 'a' ≤ c ∧ c ≤ 'z' then Char.ofNat (c.toNat - 32) else c

/-- `s.toUpperCase()` on ASCII input. -/
def jsToUpper (s : String) : String := String.mk (s.data.map chUpper)

/-- `s.charAt(0).toUpperCase() + s.slice(1)` (`charAt(0)` of the empty string
is the empty string). -/
def capFirst (s : String) : String :=
  match s.data with
  | [] => ""
  | c :: rest => String.mk (chUpper c :: rest)

/-- `description.split('\n')[0]`: the text before the first newline. -/
def jsSplitHead (s : String) : String := String.mk (s.data.takeWhile (fun c => c ≠ '\n'))

/-- Strict inequality `a !== b` on schema values. Primitives compare by
value; two object (or array) operands are distinct references in a
`JSON.parse`d document, which never aliases, so they compare unequal. -/
def jsStrictNe (a b : Json) : Bool :=
  match a, b with
  | .str x, .str y => x ≠ y
  | .num x, .num y => x ≠ y
  | .bool x, .bool y => x ≠ y
  | .null, .null => false
  | .undef, .undef => false
  | _, _ => true

/-- Both variants' `buildDescription`: summary, else first line of the
description, else `METHOD path`; then a `[tags]` block; then the full
description when distinct from the summary. String methods called on truthy
non-strings are JS `TypeError`s (caught by the caller's try/catch). -/
def buildDescription (op : Json) (method pathT : String) : Except String String :=
  match
    ((match getTruthy op "summary" with
      | some s => .ok (jsToString s)
      | none =>
        match getTruthy op "description" with
        | some (Json.str d) => .ok (jsSplitHead d)
        | some _ => .error "TypeError: operation.description.split is not a function"
        | none => .ok (jsToUpper method ++ " " ++ pathT)) : Except String String)
  with
  | .error e => .error e
  | .ok p1 =>
    match
      ((match getTruthy op "tags" with
        | some (Json.arr ts) =>
          if ts.length > 0
          then .ok ["[" ++ String.intercalate ", " (jsToStringElems ts) ++ "]"]
          else .ok []
        | some (Json.str _) => .error "TypeError: operation.tags.join is not a function"
        | some (Json.obj f) =>
          match f.lookup "length" with
          | some (Json.num n) =>
            if n > 0 then .error "TypeError: operation.tags.join is not a function" else .ok []
          | _ => .ok []
        | some _ => .ok []
        | none => .ok []) : Except String (List String))
    with
    | .error e => .error e
    | .ok p2 =>
      let p3 :=
        match getTruthy op "description", getTruthy op "summary" with
        | some d, some s => if jsStrictNe d s then ["\n\n" ++ jsToString d] else []
        | _, _ => []
      .ok (String.intercalate " " ([p1] ++ p2 ++ p3))

/-- The flattened `(pathTemplate, method, operation)` items both loops
iterate, in document order: `Object.entries(schema.paths)` then
`Object.entries(pathItem)`. Non-object path items contribute no
object-valued entries, hence no eligible operations. -/
def opItems (doc : Json) : List (String × String × Json) :=
  match jsGet doc "paths" with
  | some (Json.obj paths) =>
    paths.flatMap (fun pe =>
      match pe.2 with
      | Json.obj entries => entries.map (fun me => (pe.1, me.1, me.2))
      | _ => [])
  | _ => []

/-- `.join('')`: plain concatenation. -/
def joinAll : List String → String
  | [] => ""
  | s :: rest => s ++ joinAll rest

/-- Second parser variant `generateOperationId`: keep the non-empty path
segments that do not start with `{`, join them camel-cased (first segment
as-is, later ones capitalized), then prefix the lower-cased method and
capitalize the joined path's first character. -/
def generateOperationId2 (method path : String) : String :=
  let pathParts := (splitSlash path).filter
    (fun p => jsTruthy (Json.str p) && !(isPrefixList "\x7b".data p.data))
  let camelCasePath :=
    match pathParts with
    | [] => ""
    | s0 :: rest => s0 ++ joinAll (rest.map capFirst)
  jsToLower method ++ capFirst camelCasePath

/-- `convertSwaggerParamToSchema` (second variant): copy `type` and `items`
when truthy and rewrite `type: 'integer'` to `number`. -/
def convertSwaggerParamToSchema (param : Json) : Json :=
  let f1 := match getTruthy param "type" with
            | some t => [("type", t)]
            | none => ([] : List (String × Json))
  let f2 := match getTruthy param "items" with
            | some it => setKey f1 "items" it
            | none => f1
  let f3 := if jsGetD param "type" == Json.str "integer"
            then setKey f2 "type" (Json.str "number") else f2
  Json.obj f3

/-- The parameter loop of `buildInputSchemaV2`: a `in === 'body'` parameter
becomes the `body` property from its resolved schema (default
`{type: 'object'}`); any other parameter is converted Swagger-style. -/
def buildParamsV2 (resolve : Json → Except RBad Json) :
    List Json → List (String × Json) × List Json →
      Except RBad (List (String × Json) × List Json)
  | [], st => .ok st
  | param :: rest, st =>
    if jsGetD param "in" == Json.str "body" then
      match resolve (match getTruthy param "schema" with
                     | some s => s
                     | none => Json.obj [("type", Json.str "object")]) with
      | .error e => .error e
      | .ok bodySchema =>
        buildParamsV2 resolve rest
          (setKey st.1 "body"
            (Json.obj (setKey (fieldsOfSpread bodySchema) "description"
              (match getTruthy param "description" with
               | some d => d
               | none => Json.str "Request body"))),
           match getTruthy param "required" with
           | some _ => st.2 ++ [Json.str "body"]
           | none => st.2)
    else
      buildParamsV2 resolve rest
        (setKey st.1 (jsToString (jsGetD param "name"))
          (Json.obj (setKey (fieldsOfSpread (convertSwaggerParamToSchema param)) "description"
            (jsGetD param "description"))),
         match getTruthy param "required" with
         | some _ => st.2 ++ [jsGetD param "name"]
         | none => st.2)

/-- `buildInputSchemaV2(operation, ...)`. -/
def buildInputSchemaV2 (resolve : Json → Except RBad Json) (op : Json) :
    Except RBad Json :=
  match
    (match getTruthy op "parameters" with
     | some (Json.arr ps) => buildParamsV2 resolve ps ([], [])
     | some _ => .error (RBad.err "TypeError: operation.parameters is not iterable")
     | none => .ok ([], []))
  with
  | .error e => .error e
  | .ok (props, req) =>
    .ok (Json.obj [("type", Json.str "object"), ("properties", Json.obj props),
      ("required", if req.length > 0 then Json.arr req else Json.undef),
      ("additionalProperties", Json.bool false)])

/-- Second parser variant `operationToTool`: build the input schema (V3 or
V2) and the description inside a try/catch; a thrown error yields `null`.
Fuel exhaustion of the fueled resolver is divergence, not an exception, and
propagates. -/
def operationToTool2 (isV3 : Bool) (doc : Json) (fuel : Nat)
    (pathT method : String) (op : Json) : Except RBad (Option Tool) :=
  match (if isV3 then buildInputSchemaV3 (resolve2 isV3 doc fuel) op
         else buildInputSchemaV2 (resolve2 isV3 doc fuel) op) with
  | .error (.err _) => .ok none
  | .error .out => .error .out
  | .ok s =>
    match buildDescription op method pathT with
    | .error _ => .ok none
    | .ok d => .ok (some ⟨jsGetD op "operationId", d, s⟩)

/-- Second variant's id choice: the declared `operationId` when truthy, else
the synthesized one. -/
def id2F (pathT method : String) (op : Json) : Json :=
  match getTruthy op "operationId" with
  | some v => v
  | none => Json.str (generateOperationId2 method pathT)

def elig2F (pathT method : String) (op : Json) : Bool :=
  isHttpMethod method && isOperation2 op

/-- Second variant's per-item tool construction: `operationToTool` applied to
`{...operation, operationId}`. -/
def build2F (isV3 : Bool) (doc : Json) (fuel : Nat)
    (pathT method : String) (op : Json) : Except RBad (Option Tool) :=
  operationToTool2 isV3 doc fuel pathT method
    (Json.obj (setKey (fieldsOfSpread op) "operationId" (id2F pathT method op)))

/-- The shared shape of both variants' `generateTools` loop, over an
eligibility guard, an id choice and a tool builder: skip ineligible items,
skip ids already processed, and on a successful build push the tool and mark
the id processed (a failed build marks nothing). -/
def genLoopG (eligF : String → String → Json → Bool) (idF : String → String → Json → Json)
    (buildF : String → String → Json → Except RBad (Option Tool)) :
    List (String × String × Json) → List Tool → List Json → Except RBad (List Tool)
  | [], tools, _ => .ok tools
  | (pathT, method, op) :: rest, tools, processed =>
    if eligF pathT method op = false then genLoopG eligF idF buildF rest tools processed
    else if processed.contains (idF pathT method op) then
      genLoopG eligF idF buildF rest tools processed
    else
      match buildF pathT method op with
      | .error b => .error b
      | .ok none => genLoopG eligF idF buildF rest tools processed
      | .ok (some t) =>
        genLoopG eligF idF buildF rest (tools ++ [t]) (processed ++ [idF pathT method op])

/-- Second parser variant `generateTools`. -/
def generateTools2 (isV3 : Bool) (doc : Json) (fuel : Nat) : Except RBad (List Tool) :=
  genLoopG elig2F id2F (build2F isV3 doc fuel) (opItems doc) [] []

/-- First parser variant version detection `schema?.swagger === '2.0'`. -/
def isSwagger2of (doc : Json) : Bool := jsGetD doc "swagger" == Json.str "2.0"

/-- First parser variant `Boolean(schema?.openapi?.startsWith('3.'))`;
`startsWith` on a truthy non-string throws. -/
def isOpenAPI3of (doc : Json) : Except String Bool :=
  match jsGetD doc "openapi" with
  | Json.null => .ok false
  | Json.undef => .ok false
  | Json.str s => .ok (isPrefixList "3.".data s.data)
  | Json.bool false => .ok false
  | Json.num n => if n = 0 then .ok false else .error "TypeError: startsWith is not a function"
  | _ => .error "TypeError: startsWith is not a function"

/-- The Swagger-2.0 literal parameter conversion inside the first variant's
`buildInputSchema`: the schema literal in source order with `undefined`
values deleted (`type` defaults to `'string'` and is never `undefined`). -/
def swaggerParamLiteral (param : Json) : Json :=
  Json.obj ((("type", match getTruthy param "type" with
                      | some t => t
                      | none => Json.str "string") ::
    [("format", jsGetD param "format"), ("enum", jsGetD param "enum"),
     ("items", jsGetD param "items"), ("minimum", jsGetD param "minimum"),
     ("maximum", jsGetD param "maximum"), ("minLength", jsGetD param "minLength"),
     ("maxLength", jsGetD param "maxLength"),
     ("pattern", jsGetD param "pattern")]).filter (fun kv => !(kv.2 == Json.undef)))

/-- The parameter loop of the first variant's `buildInputSchema`: in Swagger
mode `in === 'body'` parameters are skipped here (handled after the loop)
and schema-less parameters use the literal conversion; in OpenAPI-3 mode
`param.schema || {type: 'string'}` is resolved. -/
def buildParams1 (sw2 : Bool) (resolve : Json → Except RBad Json) :
    List Json → List (String × Json) × List Json →
      Except RBad (List (String × Json) × List Json)
  | [], st => .ok st
  | param :: rest, st =>
    if sw2 && (jsGetD param "in" == Json.str "body") then
      buildParams1 sw2 resolve rest st
    else
      match
        (if sw2 then
          match getTruthy param "schema" with
          | some s => resolve s
          | none => .ok (swaggerParamLiteral param)
        else
          resolve (match getTruthy param "schema" with
                   | some s => s
                   | none => Json.obj [("type", Json.str "string")]))
      with
      | .error e => .error e
      | .ok schema =>
        buildParams1 sw2 resolve rest
          (setKey st.1 (jsToString (jsGetD param "name"))
            (Json.obj (setKey (fieldsOfSpread schema) "description" (jsGetD param "description"))),
           match getTruthy param "required" with
           | some _ => st.2 ++ [jsGetD param "name"]
           | none => st.2)

/-- First parser variant `buildInputSchema`: the version-dispatched parameter
loop, then the request body (OpenAPI 3) or the `in: 'body'` parameter
(Swagger 2.0). -/
def buildInputSchema1 (doc : Json) (resolve : Json → Except RBad Json) (op : Json) :
    Except RBad Json :=
  match isOpenAPI3of doc with
  | .error e => .error (.err e)
  | .ok v3 =>
    let sw2 := isSwagger2of doc
    match
      (match getTruthy op "parameters" with
       | some (Json.arr ps) => buildParams1 sw2 resolve ps ([], [])
       | some _ => .error (RBad.err "TypeError: operation.parameters is not iterable")
       | none => .ok ([], []))
    with
    | .error e => .error e
    | .ok (props, req) =>
      let bsch := jsGetD (jsGetD (jsGetD (jsGetD op "requestBody") "content")
        "application/json") "schema"
      match (if v3 && jsTruthy bsch then some bsch else none) with
      | some bs =>
        match resolve bs with
        | .error e => .error e
        | .ok bodySchema =>
          .ok (Json.obj [("type", Json.str "object"),
            ("properties", Json.obj (setKey props "body"
              (Json.obj (setKey (fieldsOfSpread bodySchema) "description"
                (Json.str "Request body"))))),
            ("required",
              (let req2 := match getTruthy (jsGetD op "requestBody") "required" with
                           | some _ => req ++ [Json.str "body"]
                           | none => req
               if req2.length > 0 then Json.arr req2 else Json.undef)),
            ("additionalProperties", Json.bool false)])
      | none =>
        match (if sw2 then getTruthy op "parameters" else none) with
        | some (Json.arr ps) =>
          match ps.find? (fun p => jsGetD p "in" == Json.str "body") with
          | some bodyParam =>
            match resolve (match getTruthy bodyParam "schema" with
                           | some s => s
                           | none => Json.obj [("type", Json.str "object")]) with
            | .error e => .error e
            | .ok bodySchema =>
              .ok (Json.obj [("type", Json.str "object"),
                ("properties", Json.obj (setKey props "body"
                  (Json.obj (setKey (fieldsOfSpread bodySchema) "description"
                    (match getTruthy bodyParam "description" with
                     | some d => d
                     | none => Json.str "Request body"))))),
                ("required",
                  (let req2 := match getTruthy bodyParam "required" with
                               | some _ => req ++ [Json.str "body"]
                               | none => req
                   if req2.length > 0 then Json.arr req2 else Json.undef)),
                ("additionalProperties", Json.bool false)])
          | none =>
            .ok (Json.obj [("type", Json.str "object"), ("properties", Json.obj props),
              ("required", if req.length > 0 then Json.arr req else Json.undef),
              ("additionalProperties", Json.bool false)])
        | _ =>
          .ok (Json.obj [("type", Json.str "object"), ("properties", Json.obj props),
            ("required", if req.length > 0 then Json.arr req else Json.undef),
            ("additionalProperties", Json.bool false)])

/-- First parser variant `operationToTool`. -/
def operationToTool1 (doc : Json) (fuel : Nat)
    (pathT method : String) (op : Json) : Except RBad (Option Tool) :=
  match buildInputSchema1 doc (fun s => resolve1 doc fuel s []) op with
  | .error (.err _) => .ok none
  | .error .out => .error .out
  | .ok s =>
    match buildDescription op method pathT with
    | .error _ => .ok none
    | .ok d => .ok (some ⟨jsGetD op "operationId", d, s⟩)

/-- First variant eligibility: the guards plus the
`if (!operation.operationId) continue` skip. -/
def elig1F (pathT method : String) (op : Json) : Bool :=
  isHttpMethod method && isOperation1 op && (getTruthy op "operationId").isSome

def id1F (pathT method : String) (op : Json) : Json := jsGetD op "operationId"

def build1F (doc : Json) (fuel : Nat) (pathT method : String) (op : Json) :
    Except RBad (Option Tool) :=
  operationToTool1 doc fuel pathT method op

/-- First parser variant `generateTools`. -/
def generateTools1 (doc : Json) (fuel : Nat) : Except RBad (List Tool) :=
  genLoopG elig1F id1F (build1F doc fuel) (opItems doc) [] []

/-- The decomposition invariant of the shared loop: a completed run extends
the accumulated tools by tools built from eligible items; each added tool's
id was unprocessed, and every earlier eligible item with the same id failed
to build (a success would have marked the id processed and skipped it). -/
theorem genLoopG_spec (eligF : String → String → Json → Bool)
    (idF : String → String → Json → Json)
    (buildF : String → String → Json → Except RBad (Option Tool))
    (hname : ∀ pt m op t, buildF pt m op = .ok (some t) → t.name = idF pt m op) :
    ∀ (items : List (String × String × Json)) (tools out : List Tool) (processed : List Json),
    genLoopG eligF idF buildF items tools processed = .ok out →
    tools.map Tool.name = processed →
    ∃ Δ, out = tools ++ Δ ∧
      ∀ t ∈ Δ, t.name ∉ processed ∧
        ∃ pre item post, items = pre ++ item :: post ∧
          eligF item.1 item.2.1 item.2.2 = true ∧
          idF item.1 item.2.1 item.2.2 = t.name ∧
          buildF item.1 item.2.1 item.2.2 = .ok (some t) ∧
          ∀ it ∈ pre, eligF it.1 it.2.1 it.2.2 = true →
            idF it.1 it.2.1 it.2.2 = t.name →
            buildF it.1 it.2.1 it.2.2 = .ok none := by
  intro items
  induction items with
  | nil =>
    intro tools out processed h hmap
    simp only [genLoopG] at h
    injection h with h2
    exact ⟨[], by rw [← h2, List.append_nil], fun t ht => absurd ht (List.not_mem_nil t)⟩
  | cons item rest ih =>
    obtain ⟨pathT, method, op⟩ := item
    intro tools out processed h hmap
    simp only [genLoopG] at h
    by_cases he : eligF pathT method op = true
    · rw [if_neg (by rw [he]; exact fun hx => Bool.noConfusion hx)] at h
      by_cases hc : processed.contains (idF pathT method op) = true
      · rw [if_pos hc] at h
        obtain ⟨Δ, hΔ1, hΔ2⟩ := ih tools out processed h hmap
        refine ⟨Δ, hΔ1, fun t ht => ?_⟩
        obtain ⟨hnp, pre, it0, post, hsplit, h1, h2, h3, h4⟩ := hΔ2 t ht
        refine ⟨hnp, (pathT, method, op) :: pre, it0, post, by rw [hsplit]; rfl,
          h1, h2, h3, ?_⟩
        intro it hit hel hid
        rcases List.mem_cons.mp hit with rfl | hit'
        · dsimp only at hid
          rw [hid] at hc
          have hm2 : t.name ∈ processed := by simpa using hc
          exact absurd hm2 hnp
        · exact h4 it hit' hel hid
      · rw [if_neg hc] at h
        cases hb : buildF pathT method op with
        | error b =>
          rw [hb] at h
          simp only [] at h
          exact Except.noConfusion h
        | ok ot =>
          rw [hb] at h
          cases ot with
          | none =>
            simp only [] at h
            obtain ⟨Δ, hΔ1, hΔ2⟩ := ih tools out processed h hmap
            refine ⟨Δ, hΔ1, fun t ht => ?_⟩
            obtain ⟨hnp, pre, it0, post, hsplit, h1, h2, h3, h4⟩ := hΔ2 t ht
            refine ⟨hnp, (pathT, method, op) :: pre, it0, post, by rw [hsplit]; rfl,
              h1, h2, h3, ?_⟩
            intro it hit hel hid
            rcases List.mem_cons.mp hit with rfl | hit'
            · dsimp only at hid ⊢
              exact hb
            · exact h4 it hit' hel hid
          | some t0 =>
            simp only [] at h
            have hname0 : t0.name = idF pathT method op := hname pathT method op t0 hb
            have hmap' : (tools ++ [t0]).map Tool.name = processed ++ [idF pathT method op] := by
              simp [hmap, hname0]
            obtain ⟨Δ, hΔ1, hΔ2⟩ :=
              ih (tools ++ [t0]) out (processed ++ [idF pathT method op]) h hmap'
            refine ⟨t0 :: Δ, by rw [hΔ1]; simp, fun t ht => ?_⟩
            rcases List.mem_cons.mp ht with rfl | ht'
            · refine ⟨?_, [], (pathT, method, op), rest, rfl, he, hname0.symm, hb,
                fun it hit => absurd hit (List.not_mem_nil it)⟩
              rw [hname0]
              intro hmem
              exact hc (by simpa using hmem)
            · obtain ⟨hnp, pre, it0, post, hsplit, h1, h2, h3, h4⟩ := hΔ2 t ht'
              have hnp' : t.name ∉ processed := fun hm => hnp (List.mem_append.mpr (Or.inl hm))
              refine ⟨hnp', (pathT, method, op) :: pre, it0, post, by rw [hsplit]; rfl,
                h1, h2, h3, ?_⟩
              intro it hit hel hid
              rcases List.mem_cons.mp hit with rfl | hit'
              · dsimp only at hid
                exact absurd (List.mem_append.mpr (Or.inr (List.mem_singleton.mpr hid.symm))) hnp
              · exact h4 it hit' hel hid
    · have he0 : eligF pathT method op = false := by
        cases hx : eligF pathT method op
        · rfl
        · exact absurd hx he
      rw [if_pos he0] at h
      obtain ⟨Δ, hΔ1, hΔ2⟩ := ih tools out processed h hmap
      refine ⟨Δ, hΔ1, fun t ht => ?_⟩
      obtain ⟨hnp, pre, it0, post, hsplit, h1, h2, h3, h4⟩ := hΔ2 t ht
      refine ⟨hnp, (pathT, method, op) :: pre, it0, post, by rw [hsplit]; rfl,
        h1, h2, h3, ?_⟩
      intro it hit hel hid
      rcases List.mem_cons.mp hit with rfl | hit'
      · dsimp only at hel
        rw [he0] at hel
        exact Bool.noConfusion hel
      · exact h4 it hit' hel hid

/-- A pushed id is never already processed, so the produced names stay
pairwise distinct. -/
theorem genLoopG_nodup (eligF : String → String → Json → Bool)
    (idF : String → String → Json → Json)
    (buildF : String → String → Json → Except RBad (Option Tool))
    (hname : ∀ pt m op t, buildF pt m op = .ok (some t) → t.name = idF pt m op) :
    ∀ (items : List (String × String × Json)) (tools out : List Tool) (processed : List Json),
    genLoopG eligF idF buildF items tools processed = .ok out →
    tools.map Tool.name = processed →
    (tools.map Tool.name).Nodup →
    (out.map Tool.name).Nodup := by
  intro items
  induction items with
  | nil =>
    intro tools out processed h hmap hnd
    simp only [genLoopG] at h
    injection h with h2
    rw [← h2]
    exact hnd
  | cons item rest ih =>
    obtain ⟨pathT, method, op⟩ := item
    intro tools out processed h hmap hnd
    simp only [genLoopG] at h
    by_cases he : eligF pathT method op = true
    · rw [if_neg (by rw [he]; exact fun hx => Bool.noConfusion hx)] at h
      by_cases hc : processed.contains (idF pathT method op) = true
      · rw [if_pos hc] at h
        exact ih tools out processed h hmap hnd
      · rw [if_neg hc] at h
        cases hb : buildF pathT method op with
        | error b =>
          rw [hb] at h
          simp only [] at h
          exact Except.noConfusion h
        | ok ot =>
          rw [hb] at h
          cases ot with
          | none =>
            simp only [] at h
            exact ih tools out processed h hmap hnd
          | some t0 =>
            simp only [] at h
            have hname0 : t0.name = idF pathT method op := hname pathT method op t0 hb
            have hmap' : (tools ++ [t0]).map Tool.name = processed ++ [idF pathT method op] := by
              simp [hmap, hname0]
            have hnd' : ((tools ++ [t0]).map Tool.name).Nodup := by
              rw [hmap']
              have hni : idF pathT method op ∉ processed := fun hm => hc (by simpa using hm)
              simp [List.nodup_append, hmap ▸ hnd]
              exact fun hm => hni hm
            exact ih (tools ++ [t0]) out (processed ++ [idF pathT method op]) h hmap' hnd'
    · have he0 : eligF pathT method op = false := by
        cases hx : eligF pathT method op
        · rfl
        · exact absurd hx he
      rw [if_pos he0] at h
      exact ih tools out processed h hmap hnd

/-- The loop only appends to the accumulated tools. -/
theorem genLoopG_mono (eligF : String → String → Json → Bool)
    (idF : String → String → Json → Json)
    (buildF : String → String → Json → Except RBad (Option Tool)) :
    ∀ (items : List (String × String × Json)) (tools out : List Tool) (processed : List Json),
    genLoopG eligF idF buildF items tools processed = .ok out →
    ∃ Δ, out = tools ++ Δ := by
  intro items
  induction items with
  | nil =>
    intro tools out processed h
    simp only [genLoopG] at h
    injection h with h2
    exact ⟨[], by rw [← h2, List.append_nil]⟩
  | cons item rest ih =>
    obtain ⟨pathT, method, op⟩ := item
    intro tools out processed h
    simp only [genLoopG] at h
    by_cases he : eligF pathT method op = true
    · rw [if_neg (by rw [he]; exact fun hx => Bool.noConfusion hx)] at h
      by_cases hc : processed.contains (idF pathT method op) = true
      · rw [if_pos hc] at h
        exact ih tools out processed h
      · rw [if_neg hc] at h
        cases hb : buildF pathT method op with
        | error b =>
          rw [hb] at h
          simp only [] at h
          exact Except.noConfusion h
        | ok ot =>
          rw [hb] at h
          cases ot with
          | none =>
            simp only [] at h
            exact ih tools out processed h
          | some t0 =>
            simp only [] at h
            obtain ⟨Δ, hΔ⟩ := ih (tools ++ [t0]) out (processed ++ [idF pathT method op]) h
            exact ⟨t0 :: Δ, by rw [hΔ]; simp⟩
    · have he0 : eligF pathT method op = false := by
        cases hx : eligF pathT method op
        · rfl
        · exact absurd hx he
      rw [if_pos he0] at h
      exact ih tools out processed h

/-- When some eligible item carries the id `n` and every eligible item with
id `n` builds successfully, the completed run contains a tool named `n`
(unless `n` was already processed on entry). -/
theorem genLoopG_exists (eligF : String → String → Json → Bool)
    (idF : String → String → Json → Json)
    (buildF : String → String → Json → Except RBad (Option Tool))
    (hname : ∀ pt m op t, buildF pt m op = .ok (some t) → t.name = idF pt m op) :
    ∀ (items : List (String × String × Json)) (tools out : List Tool)
      (processed : List Json) (n : Json),
    genLoopG eligF idF buildF items tools processed = .ok out →
    (∃ it ∈ items, eligF it.1 it.2.1 it.2.2 = true ∧ idF it.1 it.2.1 it.2.2 = n) →
    (∀ it ∈ items, eligF it.1 it.2.1 it.2.2 = true → idF it.1 it.2.1 it.2.2 = n →
      ∃ t', buildF it.1 it.2.1 it.2.2 = .ok (some t')) →
    n ∈ processed ∨ ∃ t ∈ out, t.name = n := by
  intro items
  induction items with
  | nil =>
    intro tools out processed n h hwit hall
    obtain ⟨it, hit, _⟩ := hwit
    exact absurd hit (List.not_mem_nil it)
  | cons item rest ih =>
    obtain ⟨pathT, method, op⟩ := item
    intro tools out processed n h hwit hall
    simp only [genLoopG] at h
    have hall' : ∀ it ∈ rest, eligF it.1 it.2.1 it.2.2 = true →
        idF it.1 it.2.1 it.2.2 = n → ∃ t', buildF it.1 it.2.1 it.2.2 = .ok (some t') :=
      fun it hit => hall it (List.mem_cons_of_mem _ hit)
    by_cases he : eligF pathT method op = true
    · rw [if_neg (by rw [he]; exact fun hx => Bool.noConfusion hx)] at h
      by_cases hc : processed.contains (idF pathT method op) = true
      · rw [if_pos hc] at h
        obtain ⟨it, hit, hel, hid⟩ := hwit
        rcases List.mem_cons.mp hit with rfl | hit'
        · dsimp only at hid
          exact Or.inl (hid ▸ (by simpa using hc))
        · exact ih tools out processed n h ⟨it, hit', hel, hid⟩ hall'
      · rw [if_neg hc] at h
        cases hb : buildF pathT method op with
        | error b =>
          rw [hb] at h
          simp only [] at h
          exact Except.noConfusion h
        | ok ot =>
          rw [hb] at h
          cases ot with
          | none =>
            simp only [] at h
            obtain ⟨it, hit, hel, hid⟩ := hwit
            rcases List.mem_cons.mp hit with rfl | hit'
            · dsimp only at hel hid
              obtain ⟨t', ht'⟩ := hall (pathT, method, op) (List.mem_cons_self _ _) hel hid
              rw [hb] at ht'
              exact absurd ht' (by intro hx; injection hx with hx2; exact Option.noConfusion hx2)
            · exact ih tools out processed n h ⟨it, hit', hel, hid⟩ hall'
          | some t0 =>
            simp only [] at h
            have hname0 : t0.name = idF pathT method op := hname pathT method op t0 hb
            have hnext := ih (tools ++ [t0]) out (processed ++ [idF pathT method op]) n h
            by_cases hn : idF pathT method op = n
            · obtain ⟨Δ, hΔ⟩ := genLoopG_mono eligF idF buildF rest (tools ++ [t0]) out
                (processed ++ [idF pathT method op]) h
              refine Or.inr ⟨t0, ?_, by rw [hname0, hn]⟩
              rw [hΔ]
              exact List.mem_append.mpr (Or.inl (List.mem_append.mpr (Or.inr
                (List.mem_singleton_self t0))))
            · obtain ⟨it, hit, hel, hid⟩ := hwit
              rcases List.mem_cons.mp hit with rfl | hit'
              · dsimp only at hid
                exact absurd hid hn
              · rcases hnext ⟨it, hit', hel, hid⟩ hall' with hl | hr
                · rcases List.mem_append.mp hl with hl1 | hl2
                  · exact Or.inl hl1
                  · exact absurd (List.mem_singleton.mp hl2).symm hn
                · exact Or.inr hr
    · have he0 : eligF pathT method op = false := by
        cases hx : eligF pathT method op
        · rfl
        · exact absurd hx he
      rw [if_pos he0] at h
      obtain ⟨it, hit, hel, hid⟩ := hwit
      rcases List.mem_cons.mp hit with rfl | hit'
      · dsimp only at hel
        rw [he0] at hel
        exact Bool.noConfusion hel
      · exact ih tools out processed n h ⟨it, hit', hel, hid⟩ hall'

theorem jsGetD_setKey_self (l : List (String × Json)) (k : String) (v : Json) :
    jsGetD (Json.obj (setKey l k v)) k = v := by
  simp [jsGetD, jsGet, lookup_setKey]

/-- A tool the second variant builds is named by the chosen id (the loop
stamps it into the operation before building). -/
theorem build2F_name (isV3 : Bool) (doc : Json) (fuel : Nat) :
    ∀ pt m op t, build2F isV3 doc fuel pt m op = .ok (some t) → t.name = id2F pt m op := by
  intro pt m op t h
  unfold build2F operationToTool2 at h
  split at h
  · exact Option.noConfusion (Except.ok.inj h)
  · exact Except.noConfusion h
  · split at h
    · exact Option.noConfusion (Except.ok.inj h)
    · have h2 := Option.some.inj (Except.ok.inj h)
      rw [← h2]
      exact jsGetD_setKey_self _ _ _

/-- A tool the first variant builds is named by the declared id. -/
theorem build1F_name (doc : Json) (fuel : Nat) :
    ∀ pt m op t, build1F doc fuel pt m op = .ok (some t) → t.name = id1F pt m op := by
  intro pt m op t h
  unfold build1F operationToTool1 at h
  split at h
  · exact Option.noConfusion (Except.ok.inj h)
  · exact Except.noConfusion h
  · split at h
    · exact Option.noConfusion (Except.ok.inj h)
    · have h2 := Option.some.inj (Except.ok.inj h)
      rw [← h2]
      rfl

/-- C4: in a completed run of either variant's `generateTools`, the produced
tool names are pairwise distinct; each produced tool comes from an eligible
operation whose chosen id is the tool's name and every earlier eligible
operation with the same id failed to build (so the winner is the first
*successfully built* occurrence, not necessarily the first occurrence); and
a name all of whose eligible carriers build successfully is produced. -/
theorem C4_duplicate_ids (isV3 : Bool) (doc doc1 : Json) (fuel fuel1 : Nat)
    (tools tools1 : List Tool)
    (hrun : generateTools2 isV3 doc fuel = .ok tools)
    (hrun1 : generateTools1 doc1 fuel1 = .ok tools1) :
    ((tools.map Tool.name).Nodup) ∧
    ((tools1.map Tool.name).Nodup) ∧
    (∀ t ∈ tools, ∃ pre item post, opItems doc = pre ++ item :: post ∧
      elig2F item.1 item.2.1 item.2.2 = true ∧
      id2F item.1 item.2.1 item.2.2 = t.name ∧
      build2F isV3 doc fuel item.1 item.2.1 item.2.2 = .ok (some t) ∧
      ∀ it ∈ pre, elig2F it.1 it.2.1 it.2.2 = true →
        id2F it.1 it.2.1 it.2.2 = t.name →
        build2F isV3 doc fuel it.1 it.2.1 it.2.2 = .ok none) ∧
    (∀ n : Json,
      (∃ it ∈ opItems doc, elig2F it.1 it.2.1 it.2.2 = true ∧ id2F it.1 it.2.1 it.2.2 = n) →
      (∀ it ∈ opItems doc, elig2F it.1 it.2.1 it.2.2 = true → id2F it.1 it.2.1 it.2.2 = n →
        ∃ t', build2F isV3 doc fuel it.1 it.2.1 it.2.2 = .ok (some t')) →
      ∃ t ∈ tools, t.name = n) := by
  have hname2 := build2F_name isV3 doc fuel
  refine ⟨?_, ?_, ?_, ?_⟩
  · exact genLoopG_nodup elig2F id2F (build2F isV3 doc fuel) hname2
      (opItems doc) [] tools [] hrun rfl (by simp)
  · exact genLoopG_nodup elig1F id1F (build1F doc1 fuel1) (build1F_name doc1 fuel1)
      (opItems doc1) [] tools1 [] hrun1 rfl (by simp)
  · intro t ht
    obtain ⟨Δ, hΔ1, hΔ2⟩ := genLoopG_spec elig2F id2F (build2F isV3 doc fuel) hname2
      (opItems doc) [] tools [] hrun rfl
    rw [List.nil_append] at hΔ1
    rw [hΔ1] at ht
    obtain ⟨hnp, pre, item, post, hsplit, h1, h2, h3, h4⟩ := hΔ2 t ht
    exact ⟨pre, item, post, hsplit, h1, h2, h3, h4⟩
  · intro n hwit hall
    rcases genLoopG_exists elig2F id2F (build2F isV3 doc fuel) hname2
      (opItems doc) [] tools [] n hrun hwit hall with hl | hr
    · exact absurd hl (List.not_mem_nil n)
    · exact hr

def exOpA : Json := Json.obj [("operationId", Json.str "foo"), ("summary", Json.str "first"),
  ("parameters", Json.arr [Json.obj [("name", Json.str "x"),
    ("schema", Json.obj [("$ref", Json.str "#/components/schemas/Nope")])]])]

def exOpB : Json := Json.obj [("operationId", Json.str "foo"), ("summary", Json.str "second")]

/-- Two operations declare the same id `foo`; the first one's parameter
schema carries an unresolvable `$ref`, so its tool construction throws and
is caught. -/
def exDupDoc : Json := Json.obj [("openapi", Json.str "3.0.0"),
  ("components", Json.obj [("schemas", Json.obj [])]),
  ("paths", Json.obj [("/a", Json.obj [("get", exOpA)]), ("/b", Json.obj [("get", exOpB)])])]

def exSchFoo : Json := Json.obj [("type", Json.str "object"), ("properties", Json.obj []),
  ("required", Json.undef), ("additionalProperties", Json.bool false)]

def exToolsFoo : List Tool := [⟨Json.str "foo", "second", exSchFoo⟩]

def exNoIdOp : Json := Json.obj [("summary", Json.str "List")]

/-- One GET operation with no `operationId`. -/
def exNoIdDoc : Json := Json.obj [("openapi", Json.str "3.0.0"),
  ("paths", Json.obj [("/workflows/{ns}/{name}", Json.obj [("get", exNoIdOp)])])]

theorem C4_duplicate_witness :
    generateTools2 true exDupDoc 10 = .ok exToolsFoo ∧
    ((exToolsFoo.map Tool.name).Nodup) :=
  ⟨by decide,
   (C4_duplicate_ids true exDupDoc exNoIdDoc 10 10 exToolsFoo [] (by decide) (by decide)).1⟩

/-- Both operations of `exDupDoc` declare the id `foo`, yet the single
produced tool is the SECOND occurrence's (its description is the second
operation's summary `second`, not the first's `first`): when the first
occurrence's tool construction fails, the id is not reserved and a later
duplicate wins, contradicting `first occurrence wins`. -/
theorem C4_first_occurrence_counterexample :
    (getTruthy exOpA "operationId" = some (Json.str "foo") ∧
     getTruthy exOpB "operationId" = some (Json.str "foo")) ∧
    buildDescription exOpB "get" "/b" = .ok "second" ∧
    buildDescription exOpA "get" "/a" = .ok "first" ∧
    generateTools2 true exDupDoc 10 = .ok [⟨Json.str "foo", "second", exSchFoo⟩] := by
  decide

/-! ### C6: synthesized tool names -/

theorem capFirst_append (s t : String) (h : s ≠ "") : capFirst (s ++ t) = capFirst s ++ t := by
  obtain ⟨l⟩ := s
  obtain ⟨lt⟩ := t
  cases l with
  | nil => exact absurd rfl h
  | cons c cs => rfl

/-- The specification's formula: strip `{...}` (and empty) segments,
capitalize each remaining segment's first letter, concatenate, and prefix
the lower-cased method. -/
def specSynthName (method path : String) : String :=
  jsToLower method ++ joinAll
    (((splitSlash path).filter
      (fun seg => (!(seg == "")) && !(isPrefixList "\x7b".data seg.data))).map capFirst)

/-- The source's synthesis (first segment kept, the joined path capitalized
once) agrees with the specification's segment-wise capitalization. -/
theorem genOpId2_eq_spec (method path : String) :
    generateOperationId2 method path = specSynthName method path := by
  unfold generateOperationId2 specSynthName
  have hfeq : (splitSlash path).filter
        (fun p => jsTruthy (Json.str p) && !(isPrefixList "\x7b".data p.data)) =
      (splitSlash path).filter
        (fun seg => (!(seg == "")) && !(isPrefixList "\x7b".data seg.data)) := by
    apply List.filter_congr
    intro x _
    have hdb : (decide (x = "")) = (x == "") := by
      by_cases hx : x = ""
      · simp [hx]
      · simp [hx, beq_eq_false_iff_ne.mpr hx]
    simp [jsTruthy, hdb]
  rw [hfeq]
  cases hps : (splitSlash path).filter
      (fun seg => (!(seg == "")) && !(isPrefixList "\x7b".data seg.data)) with
  | nil => rfl
  | cons s0 rest =>
    have hmem : s0 ∈ (splitSlash path).filter
        (fun seg => (!(seg == "")) && !(isPrefixList "\x7b".data seg.data)) := by
      rw [hps]
      exact List.mem_cons_self s0 rest
    have hpred := List.of_mem_filter hmem
    have hs0 : s0 ≠ "" := by
      intro hx
      rw [hx] at hpred
      simp at hpred
    show jsToLower method ++ capFirst (s0 ++ joinAll (rest.map capFirst)) = _
    rw [capFirst_append s0 _ hs0]
    rfl

/-- C6 (amended to the second parser variant): the synthesized name equals
the specification's formula — strip `{...}` segments, camel-case the rest,
prefix the lower-cased method — in particular `get /workflows/{ns}/{name}`
yields `getWorkflows`; and an operation declaring a truthy identifier keeps
it unchanged as the chosen id. -/
theorem C6_name_synthesis (method path : String) :
    (generateOperationId2 method path = specSynthName method path) ∧
    (generateOperationId2 "get" "/workflows/{ns}/{name}" = "getWorkflows") ∧
    (∀ (pt m : String) (op v : Json), getTruthy op "operationId" = some v →
      id2F pt m op = v) := by
  refine ⟨genOpId2_eq_spec method path, by decide, ?_⟩
  intro pt m op v hv
  unfold id2F
  rw [hv]

/-- The first parser variant, also cited by the claim, does not synthesize:
its loop skips operations without a declared `operationId` outright, so the
document's only operation produces no tool at all, while the second variant
produces the synthesized `getWorkflows` tool. -/
theorem C6_variant1_skips_counterexample :
    (getTruthy exNoIdOp "operationId" = none) ∧
    generateTools1 exNoIdDoc 10 = .ok [] ∧
    generateTools2 true exNoIdDoc 10 = .ok [⟨Json.str "getWorkflows", "List",
      Json.obj [("type", Json.str "object"), ("properties", Json.obj []),
        ("required", Json.undef), ("additionalProperties", Json.bool false)]⟩] := by
  decide

end ArgoMCP
